import Mathlib

/-!
# Verification of the Top-K ranking engine

Shallow embedding of the ranking-maintenance engine of the repository
(`RankEngine`, `SortingAlgorithm.cpp`, `AVLTree.hpp`, `BasicSort.hpp`,
`BasicSelect.hpp`, `MultiMetric.h`, `Video.h`), together with theorems
settling the frozen claims about it.

Conventions of the embedding:
* C++ `int` / `Score` / `int64_t` values are modelled as `Int`
  (the programs never overflow in the scenarios considered, and the
  claims are about order and contents, not about wrap-around).
* `std::vector` is modelled as `Array`, `std::string` as `String`,
  `std::unordered_map` as an association list (`List (String × _)`)
  with `operator[]` = update-in-place-or-append; iteration order of an
  unordered container is unspecified in C++, the association list fixes
  one order, which is irrelevant to the contents-level statements below.
* Library calls with a semantic contract (`std::sort`, `std::nth_element`)
  are modelled by an explicit comparison sort over the same comparator
  (`isortBy`), which satisfies their contracts.
* General recursion that C++ expresses with loops is expressed either
  structurally or with an explicit fuel parameter; fuel is always chosen
  at the call sites large enough, and the fuelled definitions are used
  only in ways that are insensitive to running out of fuel or come with
  a sufficiency proof.
-/

namespace RankSpec

/-! ## The lightweight ranking key (`struct key`, Video.h) -/

/-- `struct key` of Video.h: score, video id, title. -/
structure RKey where
  value : Int
  videoId : String
  title : String
deriving Repr, DecidableEq, Inhabited

/-- `key::operator<` (Video.h): descending by score, ties broken by
ascending title.  `keyLt a b = true` means `a` ranks strictly ahead. -/
def keyLt (a b : RKey) : Bool :=
  if a.value ≠ b.value then a.value > b.value
  else a.title.data < b.title.data

/-- `key::operator==` (Video.h): identity is by video id only. -/
def keyEq (a b : RKey) : Bool := a.videoId == b.videoId

/-! Basic order facts about `keyLt`: it is a strict weak order. -/

theorem keyLt_irrefl (a : RKey) : keyLt a a = false := by
  simp [keyLt]

theorem keyLt_asymm {a b : RKey} (h : keyLt a b = true) : keyLt b a = false := by
  unfold keyLt at h ⊢
  by_cases hv : a.value = b.value
  · simp [hv] at h ⊢
    exact le_of_lt h
  · simp [hv, Ne.symm hv] at h ⊢
    omega

theorem keyLt_trans {a b c : RKey} (hab : keyLt a b = true) (hbc : keyLt b c = true) :
    keyLt a c = true := by
  unfold keyLt at hab hbc ⊢
  by_cases hv1 : a.value = b.value <;> by_cases hv2 : b.value = c.value
  · simp [hv1] at hab
    simp [hv2] at hbc
    simp [hv1, hv2]
    exact lt_trans hab hbc
  · simp [hv1] at hab
    simp [hv2] at hbc
    rw [hv1]
    simp [hv2]
    omega
  · simp [hv1] at hab
    simp [hv2] at hbc
    rw [← hv2]
    simp [hv1]
    omega
  · simp [hv1] at hab
    simp [hv2] at hbc
    have : a.value > c.value := by omega
    have hne : a.value ≠ c.value := by omega
    simp [hne]
    omega

/-- Two keys are comparator-equivalent iff they share score and title. -/
theorem keyLt_not_both_iff {a b : RKey} :
    (keyLt a b = false ∧ keyLt b a = false) ↔ (a.value = b.value ∧ a.title = b.title) := by
  unfold keyLt
  constructor
  · rintro ⟨h1, h2⟩
    by_cases hv : a.value = b.value
    · refine ⟨hv, ?_⟩
      simp [hv] at h1
      simp [hv.symm] at h2
      rcases lt_trichotomy a.title.data b.title.data with h | h | h
      · exact absurd h (by simpa using h1)
      · exact String.ext h
      · exact absurd h (by simpa using h2)
    · simp [hv, Ne.symm hv] at h1 h2
      omega
  · rintro ⟨hv, ht⟩
    constructor
    · simp [hv, ht]
    · simp [hv, ht]

/-! ## Multi-metric keys (MultiMetric.h) -/

/-- `enum class MetricType` of MultiMetric.h. -/
inductive MetricType where
  | DeltaViews | DeltaLikes | DeltaComments
  | AbsoluteViews | AbsoluteLikes | AbsoluteComments
  | Recency | Duration | EngagementRate | CustomScore
deriving Repr, DecidableEq

/-- `struct MultiMetricConfig` of MultiMetric.h (the `descending` flag is
never read by the comparison code). -/
structure MultiMetricConfig where
  priority : List MetricType
  descending : Bool
deriving Repr, DecidableEq

/-- `struct MultiMetricKey` of MultiMetric.h. -/
structure MMKey where
  videoId : String
  title : String
  metrics : List Int
deriving Repr, DecidableEq, Inhabited

/-- The index loop of `MultiMetricKey::operator<`: walk the shared prefix
of the two metric tuples (`i < min(size, other.size)`) and return the
verdict of the first differing field, if any. -/
def mmCmpLoop : List Int → List Int → Option Bool
  | x :: xs, y :: ys => if x ≠ y then some (decide (x > y)) else mmCmpLoop xs ys
  | _, _ => none

/-- `MultiMetricKey::operator<` (MultiMetric.h): lexicographic descending
over the shared prefix, then longer tuple first, then ascending title. -/
def mmLt (a b : MMKey) : Bool :=
  match mmCmpLoop a.metrics b.metrics with
  | some r => r
  | none =>
    if a.metrics.length ≠ b.metrics.length then a.metrics.length > b.metrics.length
    else a.title < b.title

/-- Value selected for one metric slot by `createMultiMetricKey`
(MultiMetric.h); the `CustomScore`/default branch leaves the initial 0. -/
def metricValue (views likes comments dViews dLikes dComments recency duration : Int) :
    MetricType → Int
  | .DeltaViews => dViews
  | .DeltaLikes => dLikes
  | .DeltaComments => dComments
  | .AbsoluteViews => views
  | .AbsoluteLikes => likes
  | .AbsoluteComments => comments
  | .Recency => recency
  | .Duration => duration
  | .EngagementRate => if views > 0 then likes * 10000 / views else 0
  | .CustomScore => 0

/-- `createMultiMetricKey` (MultiMetric.h): one metric value is pushed per
configured priority entry, in priority order. -/
def createMultiMetricKey (videoId title : String) (views likes comments : Int)
    (config : MultiMetricConfig) (dViews dLikes dComments recency duration : Int) : MMKey :=
  { videoId := videoId, title := title,
    metrics := config.priority.map
      (metricValue views likes comments dViews dLikes dComments recency duration) }

/-- Modelled from the spec's words (§4.5 and claim C8), for comparison with
the code's `mmLt`: "comparison proceeds field by field over the shared
prefix, descending, first differing field decides; if all shared fields
tie, the key with more fields ranks ahead; if the tuples also have equal
length, ascending title order decides". -/
def mmSpecGo (ta tb : String) : List Int → List Int → Bool
  | x :: xs, y :: ys => if x ≠ y then decide (x > y) else mmSpecGo ta tb xs ys
  | [], [] => decide (ta < tb)
  | _ :: _, [] => true
  | [], _ :: _ => false

/-- Spec-level multi-metric comparison (see `mmSpecGo`). -/
def mmSpecLt (a b : MMKey) : Bool := mmSpecGo a.title b.title a.metrics b.metrics

theorem mmCmpLoop_spec (ta tb : String) :
    ∀ xs ys : List Int,
      (match mmCmpLoop xs ys with
       | some r => r
       | none =>
         if xs.length ≠ ys.length then decide (xs.length > ys.length)
         else decide (ta < tb)) = mmSpecGo ta tb xs ys
  | [], [] => by simp [mmCmpLoop, mmSpecGo]
  | x :: xs, [] => by simp [mmCmpLoop, mmSpecGo]
  | [], y :: ys => by simp [mmCmpLoop, mmSpecGo]
  | x :: xs, y :: ys => by
    by_cases h : x = y
    · simpa [mmCmpLoop, mmSpecGo, h] using mmCmpLoop_spec ta tb xs ys
    · simp [mmCmpLoop, mmSpecGo, h]

/-- The multi-metric configuration of claim C8's scenario:
priority `[views, likes]`. -/
def viewsLikesConfig : MultiMetricConfig :=
  { priority := [MetricType.AbsoluteViews, MetricType.AbsoluteLikes], descending := true }

/-- Item X of claim C8's scenario: views=100, likes=50. -/
def mmKeyX : MMKey := createMultiMetricKey "X" "X" 100 50 0 viewsLikesConfig 0 0 0 0 0

/-- Item Y of claim C8's scenario: views=100, likes=80. -/
def mmKeyY : MMKey := createMultiMetricKey "Y" "Y" 100 80 0 viewsLikesConfig 0 0 0 0 0

/-- C8: `MultiMetricKey::operator<` compares field by field over the shared
prefix of the metric tuples, descending, the first differing field deciding;
if all shared fields tie, the key with more fields ranks ahead; if the
lengths are also equal, ascending title order decides (this is `mmSpecLt`,
written from the claim's words).  In the scenario with priority
[views, likes], X=(views=100, likes=50) and Y=(views=100, likes=80),
Y ranks ahead of X. -/
theorem multiMetric_comparator_lexicographic :
    (∀ a b : MMKey, mmLt a b = mmSpecLt a b) ∧
    mmLt mmKeyY mmKeyX = true ∧ mmLt mmKeyX mmKeyY = false := by
  refine ⟨fun a b => ?_, by decide, by decide⟩
  have h := mmCmpLoop_spec a.title b.title a.metrics b.metrics
  unfold mmLt mmSpecLt
  rw [← h]

/-! ## Generic container helpers

`std::vector` indexing/mutation with C++ `int` indices, and association
lists standing in for `std::unordered_map`.  Out-of-bounds accesses are
undefined behaviour in C++; the helpers return a default/leave the array
unchanged, and every reachable call site stays in bounds. -/

/-- `p[i]` for an `int` index. -/
def agetI [Inhabited α] (p : Array α) (i : Int) : α :=
  if 0 ≤ i then p.getD i.toNat default else default

/-- `p[i] = v` for an `int` index. -/
def asetI (p : Array α) (i : Int) (v : α) : Array α :=
  if 0 ≤ i then p.setD i.toNat v else p

/-- `std::swap(p[i], p[j])` for `int` indices. -/
def aswapI (p : Array α) (i j : Int) : Array α :=
  if hi : 0 ≤ i ∧ i.toNat < p.size then
    if hj : 0 ≤ j ∧ j.toNat < p.size then
      p.swap ⟨i.toNat, hi.2⟩ ⟨j.toNat, hj.2⟩
    else p
  else p

theorem size_asetI (p : Array α) (i : Int) (v : α) : (asetI p i v).size = p.size := by
  unfold asetI
  split <;> simp

theorem size_aswapI (p : Array α) (i j : Int) : (aswapI p i j).size = p.size := by
  unfold aswapI
  split <;> [skip; rfl]
  split <;> simp

/-- A fold over a list of loop indices preserves the array size whenever
each loop body does. -/
theorem size_foldl_of_step {β : Type} (f : Array α → β → Array α)
    (h : ∀ p b, (f p b).size = p.size) :
    ∀ (l : List β) (p : Array α), (l.foldl f p).size = p.size := by
  intro l
  induction l with
  | nil => intro p; rfl
  | cons x xs ih => intro p; rw [List.foldl_cons, ih, h]

/-- `unordered_map::operator[]` followed by assignment: update the entry
in place if the id is present, append it otherwise. -/
def mupsert (m : List (String × β)) (id : String) (v : β) : List (String × β) :=
  match m with
  | [] => [(id, v)]
  | (id', v') :: rest =>
      if id' = id then (id, v) :: rest else (id', v') :: mupsert rest id v

/-- `unordered_map::erase(id)`: drop the entry with the given id. -/
def merase (m : List (String × β)) (id : String) : List (String × β) :=
  match m with
  | [] => []
  | (id', v') :: rest => if id' = id then rest else (id', v') :: merase rest id

/-- `unordered_map::find(id)`. -/
def mlookup (m : List (String × β)) (id : String) : Option β :=
  match m with
  | [] => none
  | (id', v') :: rest => if id' = id then some v' else mlookup rest id

/-- Insertion into a list sorted by the strict comparator `lt` (stable:
an equivalent element goes behind existing ones).  Used as the model of
`std::sort` / `std::stable_sort` style library sorting. -/
def insertBy (lt : α → α → Bool) (x : α) : List α → List α
  | [] => [x]
  | y :: ys => if lt x y then x :: y :: ys else y :: insertBy lt x ys

/-- Model of library comparison sorting (`std::sort` with comparator
`lt`): insertion sort.  Any implementation meeting the `std::sort`
contract produces a sequence sorted by `lt`; this is the canonical
stable one. -/
def isortBy (lt : α → α → Bool) : List α → List α
  | [] => []
  | x :: xs => insertBy lt x (isortBy lt xs)

/-- `std::sort(p.begin(), p.end(), lt)` on a vector. -/
def stdSortArr (lt : α → α → Bool) (p : Array α) : Array α :=
  (isortBy lt p.toList).toArray

theorem length_insertBy (lt : α → α → Bool) (x : α) :
    ∀ l : List α, (insertBy lt x l).length = l.length + 1 := by
  intro l
  induction l with
  | nil => rfl
  | cons y ys ih =>
      unfold insertBy
      split <;> simp [ih]

theorem length_isortBy (lt : α → α → Bool) :
    ∀ l : List α, (isortBy lt l).length = l.length := by
  intro l
  induction l with
  | nil => rfl
  | cons y ys ih => simp [isortBy, length_insertBy, ih]

theorem size_stdSortArr (lt : α → α → Bool) (p : Array α) :
    (stdSortArr lt p).size = p.size := by
  simp [stdSortArr, length_isortBy]

/-- Preservation of an invariant along a `foldl` over loop indices. -/
theorem foldl_inv {β : Type u} {σ : Type v} (f : σ → β → σ) (P : σ → Prop)
    (h : ∀ s b, P s → P (f s b)) :
    ∀ (l : List β) (s : σ), P s → P (l.foldl f s) := by
  intro l
  induction l with
  | nil => intro s hs; exact hs
  | cons x xs ih => intro s hs; exact ih _ (h s x hs)

/-! ## The generic sorting library (BasicSort.hpp)

The sorts are C++ templates over any type with `comesBefore`; they are
embedded generically over a comparator `lt : α → α → Bool`.  The engine
instantiates them at `key`, where `comesBefore` is `key::operator<`
(`keyLt`).  `comesAfter a b` is `comesBefore b a` (= `lt b a`). -/

/-- Inner loop of `selectsort` (BasicSort.hpp): the index of the
best element of `p[i+1 .. size)`, starting from candidate `i`. -/
def selectBestIdx [Inhabited α] (lt : α → α → Bool) (p : Array α) (i : Nat) : Nat :=
  (List.range' (i+1) (p.size - (i+1))).foldl
    (fun best j => if lt (p.getD j default) (p.getD best default) then j else best) i

/-- `selectsort` (BasicSort.hpp). -/
def selectsortArr [Inhabited α] (lt : α → α → Bool) (p : Array α) : Array α :=
  (List.range (p.size - 1)).foldl
    (fun q i =>
      let best := selectBestIdx lt q i
      if best ≠ i then aswapI q i best else q) p

/-- One pass of `bubblesort` (BasicSort.hpp) over `j ∈ [0, jmax)`,
returning the array and the `swapped` flag. -/
def bubbleInner [Inhabited α] (lt : α → α → Bool) (p : Array α) (jmax : Nat) :
    Array α × Bool :=
  (List.range jmax).foldl
    (fun st j =>
      if lt (st.1.getD (j+1) default) (st.1.getD j default) then (aswapI st.1 j (j+1), true)
      else st)
    (p, false)

/-- Outer loop of `bubblesort`; `i` is the pass number, the recursion is
on the remaining pass count, and the loop breaks early when a pass swaps
nothing. -/
def bubbleLoop [Inhabited α] (lt : α → α → Bool) (size : Nat) :
    Array α → Nat → Nat → Array α
  | p, _, 0 => p
  | p, i, fuel+1 =>
    if i < size - 1 then
      match bubbleInner lt p (size - 1 - i) with
      | (p', swapped) => if swapped then bubbleLoop lt size p' (i+1) fuel else p'
    else p

/-- `bubblesort` (BasicSort.hpp). -/
def bubblesortArr [Inhabited α] (lt : α → α → Bool) (p : Array α) : Array α :=
  bubbleLoop lt p.size p 0 p.size

/-- `while (comesBefore(p[i], pivot)) i++;` — the ascending scan of the
Hoare partition shared by `SortDetail::partition` (BasicSort.hpp) and
`SelectDetail::partition` (BasicSelect.hpp), whose bodies are
identical.  The in-bounds guard mirrors the fact that C++ relies on a
stopper element being present. -/
def scanUp [Inhabited α] (lt : α → α → Bool) (p : Array α) (pivot : α) (i : Int) : Int :=
  if h : 0 ≤ i ∧ i.toNat < p.size then
    if lt (agetI p i) pivot then scanUp lt p pivot (i+1) else i
  else i
termination_by p.size - i.toNat
decreasing_by
  have h0 : 0 ≤ i := h.1
  have h1 : i.toNat < p.size := h.2
  have : (i + 1).toNat = i.toNat + 1 := by omega
  omega

/-- `while (comesAfter(p[j], pivot)) j--;` — the descending scan of the
Hoare partition. -/
def scanDown [Inhabited α] (lt : α → α → Bool) (p : Array α) (pivot : α) (j : Int) : Int :=
  if h : 0 ≤ j ∧ j.toNat < p.size then
    if lt pivot (agetI p j) then scanDown lt p pivot (j-1) else j
  else j
termination_by (j + 1).toNat
decreasing_by
  have h0 : 0 ≤ j := h.1
  omega

/-- The `while (i <= j)` loop of the Hoare partition; returns the array
and the final `i` (the partition's return value). -/
def partLoop [Inhabited α] (lt : α → α → Bool) (pivot : α) :
    Array α → Int → Int → Nat → Array α × Int
  | p, i, _, 0 => (p, i)
  | p, i, j, fuel+1 =>
    if i ≤ j then
      let i' := scanUp lt p pivot i
      let j' := scanDown lt p pivot j
      if i' ≤ j' then
        partLoop lt pivot (aswapI p i' j') (i'+1) (j'-1) fuel
      else (p, i')
    else (p, i)

/-- `SortDetail::partition` / `SelectDetail::partition`: middle-element
pivot, Hoare-style crossing scans.  The fuel `(right-left+2)` dominates
the iteration count: `j - i` shrinks by at least 2 per iteration. -/
def hoarePartition [Inhabited α] (lt : α → α → Bool) (p : Array α) (left right : Int) :
    Array α × Int :=
  let pivot := agetI p ((left + right) / 2)
  partLoop lt pivot p left right (right - left + 2).toNat

/-- `SortDetail::quicksortImpl` (BasicSort.hpp), with fuel standing for
the recursion; fuel `p.size` dominates the depth because every
recursive interval is strictly shorter. -/
def quicksortFuel [Inhabited α] (lt : α → α → Bool) :
    Nat → Array α → Int → Int → Array α
  | 0, p, _, _ => p
  | fuel+1, p, left, right =>
    if left ≥ right then p
    else
      let pr := hoarePartition lt p left right
      let p2 := if left < pr.2 - 1 then quicksortFuel lt fuel pr.1 left (pr.2 - 1) else pr.1
      if pr.2 < right then quicksortFuel lt fuel p2 pr.2 right else p2

/-- `quicksort` (BasicSort.hpp). -/
def quicksortArr [Inhabited α] (lt : α → α → Bool) (p : Array α) : Array α :=
  if p.size ≤ 1 then p else quicksortFuel lt p.size p 0 ((p.size : Int) - 1)

/-- `p[l .. r]` as a list (the two halves fed to `SortDetail::merge`). -/
def segment [Inhabited α] (p : Array α) (l r : Int) : List α :=
  (List.range (r - l + 1).toNat).map (fun t => agetI p (l + (t : Int)))

/-- The interleaving loop of `SortDetail::merge` building `temp`:
`comesBeforeOrEqual(p[i], p[j])` is `¬ comesAfter` = `¬ lt b a`. -/
def mergeLists (lt : α → α → Bool) : List α → List α → List α
  | [], ys => ys
  | x :: xs, [] => x :: xs
  | x :: xs, y :: ys =>
      if !(lt y x) then x :: mergeLists lt xs (y :: ys)
      else y :: mergeLists lt (x :: xs) ys

/-- The write-back loop of `SortDetail::merge`: `p[left+t] = temp[t]`. -/
def writeSeg (p : Array α) (l : Int) (tmp : List α) : Array α :=
  (tmp.foldl (fun (st : Array α × Int) x => (asetI st.1 st.2 x, st.2 + 1)) (p, l)).1

/-- `SortDetail::merge` (BasicSort.hpp). -/
def mergeStep [Inhabited α] (lt : α → α → Bool) (p : Array α) (l m r : Int) : Array α :=
  writeSeg p l (mergeLists lt (segment p l m) (segment p (m+1) r))

/-- `SortDetail::mergesortImpl` (BasicSort.hpp), fuelled; fuel `p.size`
dominates the depth. -/
def mergesortFuel [Inhabited α] (lt : α → α → Bool) :
    Nat → Array α → Int → Int → Array α
  | 0, p, _, _ => p
  | fuel+1, p, left, right =>
    if left ≥ right then p
    else
      let mid := left + (right - left) / 2
      let p1 := mergesortFuel lt fuel p left mid
      let p2 := mergesortFuel lt fuel p1 (mid+1) right
      mergeStep lt p2 left mid right

/-- `mergesort` (BasicSort.hpp). -/
def mergesortArr [Inhabited α] (lt : α → α → Bool) (p : Array α) : Array α :=
  if p.size ≤ 1 then p else mergesortFuel lt p.size p 0 ((p.size : Int) - 1)

/-- Gap-insertion inner loop of `shellSort`:
`while (j >= gap && comesBefore(temp, p[j-gap])) { p[j] = p[j-gap]; j -= gap; }` -/
def shellInsert [Inhabited α] (lt : α → α → Bool) (gap : Int) (temp : α) :
    Array α → Int → Array α × Int
  | p, j =>
    if h : 0 < gap ∧ gap ≤ j ∧ lt temp (agetI p (j - gap)) then
      shellInsert lt gap temp (asetI p j (agetI p (j - gap))) (j - gap)
    else (p, j)
termination_by p j => (j + 1).toNat
decreasing_by
  omega

/-- One gap pass of `shellSort`: `for (i = gap; i < size; i++)`. -/
def shellPass [Inhabited α] (lt : α → α → Bool) (p : Array α) (gap : Int) : Array α :=
  (List.range' gap.toNat (p.size - gap.toNat)).foldl
    (fun q i =>
      let temp := q.getD i default
      let st := shellInsert lt gap temp q (i : Int)
      asetI st.1 st.2 temp) p

/-- The gap loop of `shellSort`: `for (gap = size/2; gap > 0; gap /= 2)`. -/
def shellGapLoop [Inhabited α] (lt : α → α → Bool) (p : Array α) (gap : Int) : Array α :=
  if h : 0 < gap then shellGapLoop lt (shellPass lt p gap) (gap / 2) else p
termination_by gap.toNat
decreasing_by
  omega

/-- `shellSort` (BasicSort.hpp). -/
def shellSortArr [Inhabited α] (lt : α → α → Bool) (p : Array α) : Array α :=
  shellGapLoop lt p ((p.size : Int) / 2)

/-- The `best` computation of `SortDetail::heapify` (BasicSort.hpp):
the favoured child of `i` within heap size `n`.  "Descending output:
smaller values bubble to the top, like a min-heap" —
`comesAfter(p[best], p[child])` is `lt p[child] p[best]`. -/
def heapBestIdx [Inhabited α] (lt : α → α → Bool) (p : Array α) (n i : Int) : Int :=
  let l := 2*i + 1
  let r := 2*i + 2
  let b1 := if l < n ∧ lt (agetI p l) (agetI p i) then l else i
  if r < n ∧ lt (agetI p r) (agetI p b1) then r else b1

/-- `SortDetail::heapify` (BasicSort.hpp), fuelled; fuel `n` dominates
the sift-down depth. -/
def heapifyFuel [Inhabited α] (lt : α → α → Bool) :
    Nat → Array α → Int → Int → Array α
  | 0, p, _, _ => p
  | fuel+1, p, n, i =>
    let best := heapBestIdx lt p n i
    if best ≠ i then heapifyFuel lt fuel (aswapI p i best) n best else p

/-- `heapSort` (BasicSort.hpp): build phase then extraction phase. -/
def heapSortArr [Inhabited α] (lt : α → α → Bool) (p : Array α) : Array α :=
  let size := p.size
  if size ≤ 1 then p
  else
    let built := ((List.range (size / 2)).reverse).foldl
      (fun q i => heapifyFuel lt size q (size : Int) (i : Int)) p
    ((List.range' 1 (size - 1)).reverse).foldl
      (fun q i => heapifyFuel lt size (aswapI q 0 (i : Int)) (i : Int) 0) built

/-- `enum SortType` (RankEngine.h). -/
inductive SortType where
  | sort_selection | sort_bubble | sort_quick | sort_merge
  | sort_shell | sort_heap | sort_counting | sort_radix
deriving Repr, DecidableEq

/-- `applySortAlgorithm` (SortingAlgorithm.cpp): dispatch on the policy's
sort choice; `countingSort`/`radixSort` are integer-only, so for `key`
data the code falls back to `std::sort` (by `key::operator<`). -/
def applySortAlgorithm (data : Array RKey) (s : SortType) : Array RKey :=
  match s with
  | .sort_selection => selectsortArr keyLt data
  | .sort_bubble => bubblesortArr keyLt data
  | .sort_quick => quicksortArr keyLt data
  | .sort_merge => mergesortArr keyLt data
  | .sort_shell => shellSortArr keyLt data
  | .sort_heap => heapSortArr keyLt data
  | .sort_counting => stdSortArr keyLt data
  | .sort_radix => stdSortArr keyLt data

/-! Size preservation of every sorting algorithm: each mutates the vector
only through swaps and element writes. -/

theorem size_selectsortArr [Inhabited α] (lt : α → α → Bool) (p : Array α) :
    (selectsortArr lt p).size = p.size := by
  unfold selectsortArr
  refine foldl_inv _ (fun q : Array α => q.size = p.size) ?_ _ p rfl
  intro q i hq
  dsimp only
  split <;> simp [size_aswapI, hq]

theorem size_bubbleInner [Inhabited α] (lt : α → α → Bool) (p : Array α) (jmax : Nat) :
    (bubbleInner lt p jmax).1.size = p.size := by
  unfold bubbleInner
  refine foldl_inv _ (fun st : Array α × Bool => st.1.size = p.size) ?_ _ (p, false) rfl
  intro st j hst
  dsimp only
  split <;> simp [size_aswapI, hst]

theorem size_bubbleLoop [Inhabited α] (lt : α → α → Bool) (size : Nat) :
    ∀ (fuel i : Nat) (p : Array α), (bubbleLoop lt size p i fuel).size = p.size := by
  intro fuel
  induction fuel with
  | zero => intro i p; rfl
  | succ n ih =>
      intro i p
      unfold bubbleLoop
      split
      · rcases hst : bubbleInner lt p (size - 1 - i) with ⟨q, b⟩
        have hq : q.size = p.size := by
          have := size_bubbleInner lt p (size - 1 - i)
          rwa [hst] at this
        cases b <;> simp [hst, ih, hq]
      · rfl

theorem size_bubblesortArr [Inhabited α] (lt : α → α → Bool) (p : Array α) :
    (bubblesortArr lt p).size = p.size := size_bubbleLoop ..

theorem size_partLoop [Inhabited α] (lt : α → α → Bool) (pivot : α) :
    ∀ (fuel : Nat) (p : Array α) (i j : Int),
      (partLoop lt pivot p i j fuel).1.size = p.size := by
  intro fuel
  induction fuel with
  | zero => intro p i j; rfl
  | succ n ih =>
      intro p i j
      unfold partLoop
      split
      · dsimp only
        split
        · rw [ih, size_aswapI]
        · rfl
      · rfl

theorem size_hoarePartition [Inhabited α] (lt : α → α → Bool) (p : Array α) (l r : Int) :
    (hoarePartition lt p l r).1.size = p.size := size_partLoop ..

theorem size_quicksortFuel [Inhabited α] (lt : α → α → Bool) :
    ∀ (fuel : Nat) (p : Array α) (l r : Int),
      (quicksortFuel lt fuel p l r).size = p.size := by
  intro fuel
  induction fuel with
  | zero => intro p l r; rfl
  | succ n ih =>
      intro p l r
      unfold quicksortFuel
      split
      · rfl
      · dsimp only
        split <;> split <;> simp [ih, size_hoarePartition]

theorem size_quicksortArr [Inhabited α] (lt : α → α → Bool) (p : Array α) :
    (quicksortArr lt p).size = p.size := by
  unfold quicksortArr
  split
  · rfl
  · exact size_quicksortFuel ..

theorem size_writeSeg (p : Array α) (l : Int) (tmp : List α) :
    (writeSeg p l tmp).size = p.size := by
  unfold writeSeg
  refine foldl_inv _ (fun st : Array α × Int => st.1.size = p.size) ?_ _ (p, l) rfl
  intro st x hst
  simpa [size_asetI] using hst

theorem size_mergeStep [Inhabited α] (lt : α → α → Bool) (p : Array α) (l m r : Int) :
    (mergeStep lt p l m r).size = p.size := size_writeSeg ..

theorem size_mergesortFuel [Inhabited α] (lt : α → α → Bool) :
    ∀ (fuel : Nat) (p : Array α) (l r : Int),
      (mergesortFuel lt fuel p l r).size = p.size := by
  intro fuel
  induction fuel with
  | zero => intro p l r; rfl
  | succ n ih =>
      intro p l r
      unfold mergesortFuel
      split
      · rfl
      · rw [size_mergeStep, ih, ih]

theorem size_mergesortArr [Inhabited α] (lt : α → α → Bool) (p : Array α) :
    (mergesortArr lt p).size = p.size := by
  unfold mergesortArr
  split
  · rfl
  · exact size_mergesortFuel ..

theorem size_shellInsert [Inhabited α] (lt : α → α → Bool) (gap : Int) (temp : α) :
    ∀ (p : Array α) (j : Int), (shellInsert lt gap temp p j).1.size = p.size := by
  intro p j
  unfold shellInsert
  split
  · rw [size_shellInsert, size_asetI]
  · rfl
termination_by p j => (j + 1).toNat
decreasing_by
  omega

theorem size_shellPass [Inhabited α] (lt : α → α → Bool) (p : Array α) (gap : Int) :
    (shellPass lt p gap).size = p.size := by
  unfold shellPass
  refine foldl_inv _ (fun q : Array α => q.size = p.size) ?_ _ p rfl
  intro q i hq
  dsimp only
  rw [size_asetI, size_shellInsert, hq]

theorem size_shellGapLoop [Inhabited α] (lt : α → α → Bool) :
    ∀ (gap : Int) (p : Array α), (shellGapLoop lt p gap).size = p.size := by
  intro gap p
  unfold shellGapLoop
  split
  · rw [size_shellGapLoop, size_shellPass]
  · rfl
termination_by gap p => gap.toNat
decreasing_by
  omega

theorem size_shellSortArr [Inhabited α] (lt : α → α → Bool) (p : Array α) :
    (shellSortArr lt p).size = p.size := size_shellGapLoop ..

theorem size_heapifyFuel [Inhabited α] (lt : α → α → Bool) :
    ∀ (fuel : Nat) (p : Array α) (n i : Int),
      (heapifyFuel lt fuel p n i).size = p.size := by
  intro fuel
  induction fuel with
  | zero => intro p n i; rfl
  | succ f ih =>
      intro p n i
      unfold heapifyFuel
      dsimp only
      split
      · rw [ih, size_aswapI]
      · rfl

theorem size_heapSortArr [Inhabited α] (lt : α → α → Bool) (p : Array α) :
    (heapSortArr lt p).size = p.size := by
  unfold heapSortArr
  dsimp only
  split
  · rfl
  · refine foldl_inv _ (fun q : Array α => q.size = p.size) ?_ _ _ ?_
    · intro q i hq
      dsimp only
      rw [size_heapifyFuel, size_aswapI, hq]
    · refine foldl_inv _ (fun q : Array α => q.size = p.size) ?_ _ p rfl
      intro q i hq
      dsimp only
      rw [size_heapifyFuel, hq]

theorem size_applySortAlgorithm (data : Array RKey) (s : SortType) :
    (applySortAlgorithm data s).size = data.size := by
  cases s <;>
    simp [applySortAlgorithm, size_selectsortArr, size_bubblesortArr, size_quicksortArr,
      size_mergesortArr, size_shellSortArr, size_heapSortArr, size_stdSortArr]

/-! ## The Top-K selection library (BasicSelect.hpp) -/

/-- One step of the scan of `sequentialSelect`: the bounded min-heap
(`priority_queue` with `comesBefore` as `Compare`, whose top is the
comparator-greatest, i.e. worst-ranked, retained element) is modelled as
a list kept sorted best-first, so `top()` is the last element,
`push` is ordered insertion and `pop` drops the last element. -/
def seqSelectStep [Inhabited α] (lt : α → α → Bool) (k : Int) (q : List α) (item : α) :
    List α :=
  if (q.length : Int) < k then insertBy lt item q
  else if lt item (q.getLastD default) then insertBy lt item q.dropLast
  else q

/-- `sequentialSelect` (BasicSelect.hpp): heap-bounded scan, then the
heap is drained top-first and the drained list re-sorted descending. -/
def sequentialSelect [Inhabited α] (lt : α → α → Bool) (p : Array α) (k : Int) : Array α :=
  if p.size = 0 ∨ k ≤ 0 then #[]
  else
    let k' := min k (p.size : Int)
    let heap := p.toList.foldl (seqSelectStep lt k') []
    (isortBy lt heap.reverse).toArray

/-- `SelectDetail::quickSelectImpl` (BasicSelect.hpp), fuelled; fuel
`p.size` dominates the depth (claim C10).  Returns the possibly
reordered vector together with the selected element. -/
def quickSelectImplFuel [Inhabited α] (lt : α → α → Bool) :
    Nat → Array α → Int → Int → Int → Array α × Option α
  | 0, p, _, _, _ => (p, none)
  | fuel+1, p, k, left, right =>
    if left = right then (p, some (agetI p left))
    else
      match hoarePartition lt p left right with
      | (p1, idx) =>
        if k < idx then quickSelectImplFuel lt fuel p1 k left (idx - 1)
        else quickSelectImplFuel lt fuel p1 k idx right

/-- `quickSelect` (BasicSelect.hpp): `none` models the thrown
`out_of_range` on an empty vector or an out-of-range rank. -/
def quickSelectRun [Inhabited α] (lt : α → α → Bool) (p : Array α) (k : Int) :
    Array α × Option α :=
  if p.size = 0 then (p, none)
  else if k < 0 ∨ k ≥ (p.size : Int) then (p, none)
  else quickSelectImplFuel lt p.size p k 0 ((p.size : Int) - 1)

/-- `quickSelectTopK` (BasicSelect.hpp): place the `k`-th element, copy
the prefix, sort it descending. -/
def quickSelectTopK [Inhabited α] (lt : α → α → Bool) (p : Array α) (k : Int) : Array α :=
  if p.size = 0 ∨ k ≤ 0 then #[]
  else
    let k' := min k (p.size : Int)
    match quickSelectRun lt p (k' - 1) with
    | (p1, _) => stdSortArr lt (p1.extract 0 k'.toNat)

/-- `nthElementSelect` (BasicSelect.hpp).  `std::nth_element` with the
`comesBefore` comparator is modelled by a full sort with the same
comparator, which meets its partial-ordering contract; the copied prefix
is then sorted again as in the source. -/
def nthElementSelect [Inhabited α] (lt : α → α → Bool) (p : Array α) (k : Int) : Array α :=
  if p.size = 0 ∨ k ≤ 0 then #[]
  else
    let k' := min k (p.size : Int)
    let p1 := stdSortArr lt p
    stdSortArr lt (p1.extract 0 k'.toNat)

/-- `enum SelectType` (RankEngine.h). -/
inductive SelectType where
  | select_sequential | select_quick | select_binary | select_nth
deriving Repr, DecidableEq

/-- `enum class SelectAlgorithm` (BasicSelect.hpp). -/
inductive SelectAlgorithm where
  | Sequential | QuickSelect | BinarySelect | NthElement
deriving Repr, DecidableEq

/-- `toSelectAlgorithm` (SortingAlgorithm.cpp). -/
def toSelectAlgorithm : SelectType → SelectAlgorithm
  | .select_sequential => .Sequential
  | .select_quick => .QuickSelect
  | .select_binary => .BinarySelect
  | .select_nth => .NthElement

/-- `selectTopK` (BasicSelect.hpp) instantiated at `key`: `key` is not an
integral type, so the `BinarySelect` branch falls back to
`quickSelectTopK` (the `if constexpr` in the source). -/
def selectTopK (p : Array RKey) (k : Int) (algo : SelectAlgorithm) : Array RKey :=
  match algo with
  | .Sequential => sequentialSelect keyLt p k
  | .QuickSelect => quickSelectTopK keyLt p k
  | .BinarySelect => quickSelectTopK keyLt p k
  | .NthElement => nthElementSelect keyLt p k

theorem length_seqSelectFold [Inhabited α] (lt : α → α → Bool) (k : Int) (hk : 1 ≤ k) :
    ∀ (l : List α) (q : List α), (q.length : Int) ≤ k →
      ((l.foldl (seqSelectStep lt k) q).length : Int) = min k (q.length + l.length) := by
  intro l
  induction l with
  | nil =>
      intro q hq
      rw [List.foldl_nil, List.length_nil]
      omega
  | cons x xs ih =>
      intro q hq
      rw [List.foldl_cons, List.length_cons]
      by_cases hlt : (q.length : Int) < k
      · have h1 : seqSelectStep lt k q x = insertBy lt x q := by
          unfold seqSelectStep
          rw [if_pos hlt]
        rw [h1, ih _ (by rw [length_insertBy]; push_cast; omega)]
        rw [length_insertBy]
        push_cast
        omega
      · have hqk : (q.length : Int) = k := by omega
        have hqpos : q.length ≠ 0 := by
          intro h0
          rw [h0] at hqk
          simp only [Nat.cast_zero] at hqk
          omega
        have hstep : (seqSelectStep lt k q x).length = q.length := by
          unfold seqSelectStep
          rw [if_neg hlt]
          split
          · rw [length_insertBy, List.length_dropLast]
            omega
          · rfl
        have hstep' : ((seqSelectStep lt k q x).length : Int) ≤ k := by
          rw [hstep]; omega
        rw [ih _ hstep', hstep]
        omega

theorem size_sequentialSelect [Inhabited α] (lt : α → α → Bool) (p : Array α) (k : Int)
    (hk : 1 ≤ k) : (sequentialSelect lt p k).size = min k.toNat p.size := by
  unfold sequentialSelect
  by_cases hp : p.size = 0
  · simp [hp]
  · have hk' : ¬(p.size = 0 ∨ k ≤ 0) := by omega
    simp only [hk', if_false]
    have hfold := length_seqSelectFold lt (min k (p.size : Int)) (by omega) p.toList []
      (by simp; omega)
    simp only [List.length_nil, List.length_reverse] at hfold ⊢
    have : ((isortBy lt ((p.toList.foldl (seqSelectStep lt (min k (p.size : Int))) [])).reverse).toArray).size
        = ((p.toList.foldl (seqSelectStep lt (min k (p.size : Int))) [])).length := by
      simp [length_isortBy]
    rw [this]
    have hlen : (p.toList.length : Int) = (p.size : Int) := by simp
    omega

theorem size_quickSelectImplFuel [Inhabited α] (lt : α → α → Bool) :
    ∀ (fuel : Nat) (p : Array α) (k l r : Int),
      (quickSelectImplFuel lt fuel p k l r).1.size = p.size := by
  intro fuel
  induction fuel with
  | zero => intro p k l r; rfl
  | succ n ih =>
      intro p k l r
      unfold quickSelectImplFuel
      split
      · rfl
      · rcases hpart : hoarePartition lt p l r with ⟨p1, idx⟩
        have hp1 : p1.size = p.size := by
          have := size_hoarePartition lt p l r
          rwa [hpart] at this
        simp only [hpart]
        split <;> rw [ih, hp1]

theorem size_quickSelectRun [Inhabited α] (lt : α → α → Bool) (p : Array α) (k : Int) :
    (quickSelectRun lt p k).1.size = p.size := by
  unfold quickSelectRun
  split
  · rfl
  · split
    · rfl
    · exact size_quickSelectImplFuel ..

theorem size_quickSelectTopK [Inhabited α] (lt : α → α → Bool) (p : Array α) (k : Int)
    (hk : 1 ≤ k) : (quickSelectTopK lt p k).size = min k.toNat p.size := by
  unfold quickSelectTopK
  by_cases hp : p.size = 0
  · simp [hp]
  · have hk' : ¬(p.size = 0 ∨ k ≤ 0) := by omega
    simp only [hk', if_false]
    rcases hrun : quickSelectRun lt p (min k (p.size : Int) - 1) with ⟨p1, v⟩
    have hp1 : p1.size = p.size := by
      have := size_quickSelectRun lt p (min k (p.size : Int) - 1)
      rwa [hrun] at this
    simp only [size_stdSortArr, Array.size_extract, hp1]
    omega

theorem size_nthElementSelect [Inhabited α] (lt : α → α → Bool) (p : Array α) (k : Int)
    (hk : 1 ≤ k) : (nthElementSelect lt p k).size = min k.toNat p.size := by
  unfold nthElementSelect
  by_cases hp : p.size = 0
  · simp [hp]
  · have hk' : ¬(p.size = 0 ∨ k ≤ 0) := by omega
    simp only [hk', if_false]
    simp only [size_stdSortArr, Array.size_extract]
    omega

theorem size_selectTopK (p : Array RKey) (k : Int) (algo : SelectAlgorithm)
    (hk : 1 ≤ k) : (selectTopK p k algo).size = min k.toNat p.size := by
  cases algo <;>
    simp [selectTopK, size_sequentialSelect _ _ _ hk, size_quickSelectTopK _ _ _ hk,
      size_nthElementSelect _ _ _ hk]

/-! ## The order-statistics AVL tree (`RankAVLTree`, AVLTree.hpp)

The engine instantiates the template at `T = key` with the comparator
lambda of `build_AVLTree` — "higher score first, ties by title" — which
is exactly `key::operator<` (`keyLt`), and `KeyExtractor` returning the
video id.  The id→node map (`nodeMap_`) stores node pointers; a node's
stored data changes only transiently inside two-child deletion, so at
the data level the map is id → stored key. -/

/-- `RankAVLNode`: payload, height, subtree size (both C++ `int`),
children. -/
inductive RTree where
  | leaf
  | node (left : RTree) (data : RKey) (height subtreeSize : Int) (right : RTree)
deriving Repr, DecidableEq, Inhabited

/-- `getHeight`: 0 for null. -/
def hgt : RTree → Int
  | .leaf => 0
  | .node _ _ h _ _ => h

/-- `getSubtreeSize`: 0 for null. -/
def ssz : RTree → Int
  | .leaf => 0
  | .node _ _ _ s _ => s

/-- `updateNode`: recompute height and subtree size from the children. -/
def updN (l : RTree) (d : RKey) (r : RTree) : RTree :=
  .node l d (1 + max (hgt l) (hgt r)) (1 + ssz l + ssz r) r

/-- `getBalance`: left height minus right height. -/
def balF : RTree → Int
  | .leaf => 0
  | .node l _ _ _ r => hgt l - hgt r

/-- `rightRotate`; the fallthrough (null `left`, which C++ would
dereference) is unreachable under the balance conditions that guard the
call. -/
def rightRotate : RTree → RTree
  | .node (.node a x _ _ b) y _ _ c => updN a x (updN b y c)
  | t => t

/-- `leftRotate`. -/
def leftRotate : RTree → RTree
  | .node a x _ _ (.node b y _ _ c) => updN (updN a x b) y c
  | t => t

/-- `balance` (RankAVLTree): `updateNode`, then the four rotation
cases on the balance factor. -/
def balanceN (l : RTree) (d : RKey) (r : RTree) : RTree :=
  let bf := hgt l - hgt r
  if bf > 1 then
    let l' := if balF l < 0 then leftRotate l else l
    rightRotate (updN l' d r)
  else if bf < -1 then
    let r' := if balF r > 0 then rightRotate r else r
    leftRotate (updN l d r')
  else updN l d r

/-- `insertNode` (RankAVLTree): descend by the comparator (ties go
right), rebalance on the way up. -/
def insertNode (t : RTree) (v : RKey) : RTree :=
  match t with
  | .leaf => .node .leaf v 1 1 .leaf
  | .node l d _ _ r =>
    if keyLt v d then balanceN (insertNode l v) d r
    else balanceN l d (insertNode r v)

/-- `findMin`: data of the leftmost node. -/
def findMinData : RTree → Option RKey
  | .leaf => none
  | .node .leaf d _ _ _ => some d
  | .node (.node a y h s b) _ _ _ _ => findMinData (.node a y h s b)

/-- The id→node map of `RankAVLTree` at the data level. -/
abbrev NodeMap := List (String × RKey)

/-- `removeNode` (RankAVLTree): descend by the comparator; a node with
at most one child is replaced by that child; a node with two children
takes its in-order successor's data (updating the id map: the matched
node's id is erased and the successor's id re-pointed at this node)
and the successor is removed from the right subtree. -/
def removeNode (t : RTree) (v : RKey) (m : NodeMap) : RTree × NodeMap :=
  match t with
  | .leaf => (.leaf, m)
  | .node l d _ _ r =>
    if keyLt v d then
      let res := removeNode l v m
      (balanceN res.1 d r, res.2)
    else if keyLt d v then
      let res := removeNode r v m
      (balanceN l d res.1, res.2)
    else
      match l with
      | .leaf => (r, m)
      | _ =>
        match r with
        | .leaf => (l, m)
        | _ =>
          match findMinData r with
          | none => (t, m)
          | some succ =>
            let m1 := mupsert (merase m d.videoId) succ.videoId succ
            let res := removeNode r succ m1
            (balanceN l succ res.1, res.2)

/-- In-order traversal (`inorderTraversal` / `inorder`). -/
def inorderList : RTree → List RKey
  | .leaf => []
  | .node l d _ _ r => inorderList l ++ d :: inorderList r

/-- `inorderTopK` (RankAVLTree): bounded in-order collection. -/
def inorderTopK (k : Nat) : RTree → List RKey → List RKey
  | .leaf, acc => acc
  | .node l d _ _ r, acc =>
    if acc.length ≥ k then acc
    else
      let acc1 := inorderTopK k l acc
      let acc2 := if acc1.length < k then acc1 ++ [d] else acc1
      if acc2.length < k then inorderTopK k r acc2 else acc2

/-- `kthElementHelper` (RankAVLTree): subtree-size guided descent,
`k` 1-based (`size_type`, so `Nat`). -/
def kthElementHelper : RTree → Nat → Option RKey
  | .leaf, _ => none
  | .node l d _ _ r, k =>
    let leftSize := (ssz l).toNat
    if k ≤ leftSize then kthElementHelper l k
    else if k = leftSize + 1 then some d
    else kthElementHelper r (k - leftSize - 1)

/-- `getRankHelper` (RankAVLTree): accumulate left-subtree sizes on the
way down. -/
def getRankHelper : RTree → RKey → Nat → Nat
  | .leaf, _, _ => 0
  | .node l d _ _ r, v, accum =>
    let leftSize := (ssz l).toNat
    if keyLt v d then getRankHelper l v accum
    else if keyLt d v then getRankHelper r v (accum + leftSize + 1)
    else accum + leftSize + 1

/-- The `RankAVLTree` object: root, size counter (`size_type`), id map. -/
structure RankTree where
  root : RTree
  size_ : Nat
  nodeMap : NodeMap
deriving Repr, DecidableEq, Inhabited

/-- A freshly constructed `RankAVLTree`. -/
def RankTree.empty : RankTree := ⟨.leaf, 0, []⟩

/-- `RankAVLTree::insert`. -/
def RankTree.insert (t : RankTree) (v : RKey) : RankTree :=
  { root := insertNode t.root v, size_ := t.size_ + 1,
    nodeMap := mupsert t.nodeMap v.videoId v }

/-- `RankAVLTree::removeById`: look the node up in the id map, remove by
its stored key, erase the map entry.  (C++ erases through the iterator
obtained before `removeNode`; at the data level this is an erase by
id.) -/
def RankTree.removeById (t : RankTree) (id : String) : RankTree × Bool :=
  match mlookup t.nodeMap id with
  | none => (t, false)
  | some d =>
    match removeNode t.root d t.nodeMap with
    | (r', m') => ({ root := r', size_ := t.size_ - 1, nodeMap := merase m' id }, true)

/-- `RankAVLTree::update`: remove the old node (erasing its map entry),
then insert the new data. -/
def RankTree.update (t : RankTree) (id : String) (newData : RKey) : RankTree × Bool :=
  match mlookup t.nodeMap id with
  | none => (t, false)
  | some old =>
    match removeNode t.root old t.nodeMap with
    | (r', m') =>
      (RankTree.insert { root := r', size_ := t.size_ - 1, nodeMap := merase m' id } newData,
        true)

/-- `RankAVLTree::topK`. -/
def RankTree.topK (t : RankTree) (k : Nat) : List RKey := inorderTopK k t.root []

/-- `RankAVLTree::kthElement` (1-based). -/
def RankTree.kthElement (t : RankTree) (k : Nat) : Option RKey :=
  if k = 0 ∨ k > t.size_ then none else kthElementHelper t.root k

/-- `RankAVLTree::getRank` (1-based; 0 when absent). -/
def RankTree.getRank (t : RankTree) (v : RKey) : Nat := getRankHelper t.root v 0

/-! ## Videos and the ranking engine's tree refresh (SortingAlgorithm.cpp) -/

/-- The fields of `struct YouTubeVideoInfo` (Video.h) that the ranking
engine reads.  `score` is the already-computed scalar score: the spec
places the scoring formula with an external collaborator ("the engine
consumes already-scored items"), so `calculateScore()` is modelled as
having been applied. -/
structure Video where
  videoId : String
  title : String
  score : Int
  viewCount : Int
  likeCount : Int
  commentCount : Int
deriving Repr, DecidableEq, Inhabited

/-- `Video::makekey` (Video.cpp). -/
def Video.makekey (v : Video) : RKey := ⟨v.score, v.videoId, v.title⟩

/-- The `newDataMap` of `refresh_AVLTree`: id → key for the new
snapshot, later ids overwriting earlier duplicates. -/
def snapMap (newData : List Video) : NodeMap :=
  newData.foldl (fun m v => mupsert m v.videoId v.makekey) []

/-- One visited item of the in-order scan of `refresh_AVLTree`: an id
absent from the snapshot map is queued for removal; a present id with a
changed score is queued for update; every visited present id is erased
from the snapshot map ("seen"). -/
def scanStep (st : List String × List (String × RKey) × NodeMap) (item : RKey) :
    List String × List (String × RKey) × NodeMap :=
  match mlookup st.2.2 item.videoId with
  | none => (st.1 ++ [item.videoId], st.2.1, st.2.2)
  | some nk =>
      (st.1,
       if item.value ≠ nk.value then st.2.1 ++ [(item.videoId, nk)] else st.2.1,
       merase st.2.2 item.videoId)

/-- The in-order scan of `refresh_AVLTree`, producing the removal queue,
the update queue, and the residue of the snapshot map (the genuinely new
items). -/
def refreshScan (items : List RKey) (snap : NodeMap) :
    List String × List (String × RKey) × NodeMap :=
  items.foldl scanStep ([], [], snap)

/-- The tree part of `RankEngine::refresh_AVLTree`
(SortingAlgorithm.cpp): early return on an empty snapshot; initial bulk
insert when the tree is empty; otherwise scan, then all removals, then
all updates, then insertion of the unseen remainder.  (The subsequent
`topK`/position-map recomputation reads the tree but does not change
it.) -/
def refreshAVLTree (t : RankTree) (newData : List Video) : RankTree :=
  if newData = [] then t
  else
    let snap := snapMap newData
    if t.size_ = 0 then
      snap.foldl (fun acc p => acc.insert p.2) t
    else
      match refreshScan (inorderList t.root) snap with
      | (toRemove, toUpdate, remaining) =>
        let t1 := toRemove.foldl (fun acc id => (acc.removeById id).1) t
        let t2 := toUpdate.foldl (fun acc p => ((acc.update p.1 p.2).1)) t1
        remaining.foldl (fun acc p => acc.insert p.2) t2

/-- `RankEngine::build_AVLTree`'s tree construction: a fresh tree filled
from the key list in order.  Used as the "fresh build" side of claim
C3. -/
def buildFreshTree (keys : List RKey) : RankTree :=
  keys.foldl RankTree.insert RankTree.empty

/-! ### Rotations and rebalancing preserve the in-order traversal -/

theorem inorder_updN (l : RTree) (d : RKey) (r : RTree) :
    inorderList (updN l d r) = inorderList l ++ d :: inorderList r := rfl

theorem inorder_rightRotate (t : RTree) : inorderList (rightRotate t) = inorderList t := by
  rcases t with _ | ⟨l, d, h, s, r⟩
  · rfl
  · rcases l with _ | ⟨a, x, hx, sx, b⟩
    · rfl
    · simp [rightRotate, updN, inorderList]

theorem inorder_leftRotate (t : RTree) : inorderList (leftRotate t) = inorderList t := by
  rcases t with _ | ⟨l, d, h, s, r⟩
  · rfl
  · rcases r with _ | ⟨b, y, hy, sy, c⟩
    · rfl
    · simp [leftRotate, updN, inorderList]

theorem inorder_balanceN (l : RTree) (d : RKey) (r : RTree) :
    inorderList (balanceN l d r) = inorderList l ++ d :: inorderList r := by
  unfold balanceN
  dsimp only
  split
  · rw [inorder_rightRotate, inorder_updN]
    split
    · rw [inorder_leftRotate]
    · rfl
  · split
    · rw [inorder_leftRotate, inorder_updN]
      split
      · rw [inorder_rightRotate]
      · rfl
    · rfl

/-! ### Subtree-size bookkeeping (`subtreeSize` fields are correct) -/

/-- Every node's `subtreeSize` field equals the recomputation from its
children — equivalently, the node count of its subtree. -/
inductive SzOk : RTree → Prop
  | leaf : SzOk .leaf
  | node {l : RTree} {d : RKey} {h s : Int} {r : RTree} :
      SzOk l → SzOk r → s = 1 + ssz l + ssz r → SzOk (.node l d h s r)

theorem szOk_ssz {t : RTree} (ht : SzOk t) : ssz t = ((inorderList t).length : Int) := by
  induction ht with
  | leaf => rfl
  | node hl hr hs ihl ihr =>
      rename_i l d h s r
      show s = ((inorderList (.node l d h s r)).length : Int)
      rw [hs, ihl, ihr]
      simp [inorderList]
      push_cast
      ring

theorem szOk_updN {l r : RTree} (d : RKey) (hl : SzOk l) (hr : SzOk r) :
    SzOk (updN l d r) := .node hl hr rfl

theorem szOk_inv {l : RTree} {d : RKey} {h s : Int} {r : RTree}
    (ht : SzOk (.node l d h s r)) : SzOk l ∧ SzOk r := by
  cases ht with
  | node hl hr _ => exact ⟨hl, hr⟩

theorem szOk_rightRotate {t : RTree} (ht : SzOk t) : SzOk (rightRotate t) := by
  rcases t with _ | ⟨l, d, h, s, r⟩
  · exact ht
  · rcases l with _ | ⟨a, x, hx, sx, b⟩
    · exact ht
    · obtain ⟨hL, hr⟩ := szOk_inv ht
      obtain ⟨ha, hb⟩ := szOk_inv hL
      exact szOk_updN _ ha (szOk_updN _ hb hr)

theorem szOk_leftRotate {t : RTree} (ht : SzOk t) : SzOk (leftRotate t) := by
  rcases t with _ | ⟨l, d, h, s, r⟩
  · exact ht
  · rcases r with _ | ⟨b, y, hy, sy, c⟩
    · exact ht
    · obtain ⟨hl, hR⟩ := szOk_inv ht
      obtain ⟨hb, hc⟩ := szOk_inv hR
      exact szOk_updN _ (szOk_updN _ hl hb) hc

theorem szOk_balanceN {l r : RTree} (d : RKey) (hl : SzOk l) (hr : SzOk r) :
    SzOk (balanceN l d r) := by
  unfold balanceN
  dsimp only
  split
  · refine szOk_rightRotate (szOk_updN _ ?_ hr)
    split
    · exact szOk_leftRotate hl
    · exact hl
  · split
    · refine szOk_leftRotate (szOk_updN _ hl ?_)
      split
      · exact szOk_rightRotate hr
      · exact hr
    · exact szOk_updN _ hl hr

theorem szOk_insertNode {t : RTree} (v : RKey) (ht : SzOk t) : SzOk (insertNode t v) := by
  induction t with
  | leaf => exact .node .leaf .leaf rfl
  | node l d h s r ihl ihr =>
      obtain ⟨hl, hr⟩ := szOk_inv ht
      unfold insertNode
      split
      · exact szOk_balanceN _ (ihl hl) hr
      · exact szOk_balanceN _ hl (ihr hr)

/-! ### The binary-search-tree invariant -/

/-- Strict BST ordering by the engine's comparator: everything left of a
node ranks strictly ahead of it, everything right strictly behind. -/
inductive IsBST : RTree → Prop
  | leaf : IsBST .leaf
  | node {l : RTree} {d : RKey} {h s : Int} {r : RTree} :
      IsBST l → IsBST r →
      (∀ x ∈ inorderList l, keyLt x d = true) →
      (∀ x ∈ inorderList r, keyLt d x = true) →
      IsBST (.node l d h s r)

theorem isBST_inv {l : RTree} {d : RKey} {h s : Int} {r : RTree}
    (ht : IsBST (.node l d h s r)) :
    IsBST l ∧ IsBST r ∧ (∀ x ∈ inorderList l, keyLt x d = true) ∧
      (∀ x ∈ inorderList r, keyLt d x = true) := by
  cases ht with
  | node hl hr hld hrd => exact ⟨hl, hr, hld, hrd⟩

/-- The in-order traversal of a BST is strictly sorted by the
comparator. -/
theorem isBST_pairwise {t : RTree} (ht : IsBST t) :
    (inorderList t).Pairwise (fun a b => keyLt a b = true) := by
  induction ht with
  | leaf => exact .nil
  | node hl hr hld hrd ihl ihr =>
      rename_i l d h s r
      rw [inorderList, List.pairwise_append]
      refine ⟨ihl, ?_, ?_⟩
      · exact List.Pairwise.cons hrd ihr
      · intro a ha b hb
        rcases List.mem_cons.mp hb with hb | hb
        · exact hb ▸ hld a ha
        · exact keyLt_trans (hld a ha) (hrd b hb)

/-- Distinct members of a BST are never comparator-equivalent. -/
theorem isBST_uniq {t : RTree} (ht : IsBST t) {x y : RKey}
    (hx : x ∈ inorderList t) (hy : y ∈ inorderList t)
    (h1 : keyLt x y = false) (h2 : keyLt y x = false) : x = y := by
  have hp := isBST_pairwise ht
  by_contra hne
  have hp' : (inorderList t).Pairwise
      (fun a b => keyLt a b = true ∨ keyLt b a = true) :=
    hp.imp (fun h => Or.inl h)
  have hsym : Symmetric (fun a b : RKey => keyLt a b = true ∨ keyLt b a = true) := by
    intro a b hab
    exact hab.symm
  rcases hp'.forall hsym hx hy hne with h | h
  · simp [h1] at h
  · simp [h2] at h

theorem mem_inorder_node {l : RTree} {d : RKey} {h s : Int} {r : RTree} {x : RKey} :
    x ∈ inorderList (.node l d h s r) ↔ x ∈ inorderList l ∨ x = d ∨ x ∈ inorderList r := by
  simp [inorderList]

theorem isBST_rightRotate {t : RTree} (ht : IsBST t) : IsBST (rightRotate t) := by
  rcases t with _ | ⟨l, d, h, s, r⟩
  · exact ht
  rcases l with _ | ⟨a, x, hx, sx, b⟩
  · exact ht
  obtain ⟨hL, hr, hld, hrd⟩ := isBST_inv ht
  obtain ⟨ha, hb, hax, hxb⟩ := isBST_inv hL
  have hxd : keyLt x d = true := hld x (mem_inorder_node.mpr (Or.inr (Or.inl rfl)))
  refine .node ha (.node hb hr ?_ hrd) hax ?_
  · intro z hz
    exact hld z (mem_inorder_node.mpr (Or.inr (Or.inr hz)))
  · intro z hz
    rcases mem_inorder_node.mp hz with hz | hz | hz
    · exact hxb z hz
    · exact hz ▸ hxd
    · exact keyLt_trans hxd (hrd z hz)

theorem isBST_leftRotate {t : RTree} (ht : IsBST t) : IsBST (leftRotate t) := by
  rcases t with _ | ⟨l, d, h, s, r⟩
  · exact ht
  rcases r with _ | ⟨b, y, hy, sy, c⟩
  · exact ht
  obtain ⟨hl, hR, hld, hrd⟩ := isBST_inv ht
  obtain ⟨hb, hc, hby, hyc⟩ := isBST_inv hR
  have hdy : keyLt d y = true := hrd y (mem_inorder_node.mpr (Or.inr (Or.inl rfl)))
  refine .node (.node hl hb hld ?_) hc ?_ hyc
  · intro z hz
    exact hrd z (mem_inorder_node.mpr (Or.inl hz))
  · intro z hz
    rcases mem_inorder_node.mp hz with hz | hz | hz
    · exact keyLt_trans (hld z hz) hdy
    · exact hz ▸ hdy
    · exact hby z hz

theorem isBST_balanceN {l r : RTree} {d : RKey} (hl : IsBST l) (hr : IsBST r)
    (hld : ∀ x ∈ inorderList l, keyLt x d = true)
    (hrd : ∀ x ∈ inorderList r, keyLt d x = true) : IsBST (balanceN l d r) := by
  unfold balanceN
  dsimp only
  split
  · refine isBST_rightRotate (.node ?_ hr ?_ hrd)
    · split
      · exact isBST_leftRotate hl
      · exact hl
    · split
      · intro x hx
        rw [inorder_leftRotate] at hx
        exact hld x hx
      · exact hld
  · split
    · refine isBST_leftRotate (.node hl ?_ hld ?_)
      · split
        · exact isBST_rightRotate hr
        · exact hr
      · split
        · intro x hx
          rw [inorder_rightRotate] at hx
          exact hrd x hx
        · exact hrd
    · exact .node hl hr hld hrd

theorem perm_insertNode (t : RTree) (v : RKey) :
    List.Perm (inorderList (insertNode t v)) (v :: inorderList t) := by
  induction t with
  | leaf => simp [insertNode, inorderList]
  | node l d h s r ihl ihr =>
      unfold insertNode
      split
      · rw [inorder_balanceN, inorderList]
        exact ihl.append_right _
      · rw [inorder_balanceN, inorderList]
        have h1 : List.Perm (inorderList l ++ d :: inorderList (insertNode r v))
            (inorderList l ++ d :: v :: inorderList r) :=
          List.Perm.append_left _ (List.Perm.cons d ihr)
        have h2 : inorderList l ++ d :: v :: inorderList r
            = (inorderList l ++ [d]) ++ v :: inorderList r := by simp
        have h3 : List.Perm ((inorderList l ++ [d]) ++ v :: inorderList r)
            (v :: ((inorderList l ++ [d]) ++ inorderList r)) := List.perm_middle
        have h4 : (inorderList l ++ [d]) ++ inorderList r
            = inorderList l ++ d :: inorderList r := by simp
        refine h1.trans ?_
        rw [h2]
        refine h3.trans ?_
        rw [h4]

theorem mem_insertNode {t : RTree} {v x : RKey} :
    x ∈ inorderList (insertNode t v) ↔ x = v ∨ x ∈ inorderList t := by
  rw [(perm_insertNode t v).mem_iff]
  simp

theorem isBST_insertNode {t : RTree} {v : RKey} (ht : IsBST t)
    (hne : ∀ x ∈ inorderList t, keyLt v x = true ∨ keyLt x v = true) :
    IsBST (insertNode t v) := by
  induction t with
  | leaf =>
      exact .node .leaf .leaf (by simp [inorderList]) (by simp [inorderList])
  | node l d h s r ihl ihr =>
      obtain ⟨hl, hr, hld, hrd⟩ := isBST_inv ht
      unfold insertNode
      split
      · rename_i hvd
        refine isBST_balanceN ?_ hr ?_ hrd
        · exact ihl hl (fun x hx => hne x (mem_inorder_node.mpr (Or.inl hx)))
        · intro x hx
          rcases mem_insertNode.mp hx with hx | hx
          · exact hx ▸ hvd
          · exact hld x hx
      · rename_i hvd
        have hdv : keyLt d v = true := by
          rcases hne d (mem_inorder_node.mpr (Or.inr (Or.inl rfl))) with h | h
          · exact absurd h hvd
          · exact h
        refine isBST_balanceN hl ?_ hld ?_
        · exact ihr hr (fun x hx => hne x (mem_inorder_node.mpr (Or.inr (Or.inr hx))))
        · intro x hx
          rcases mem_insertNode.mp hx with hx | hx
          · exact hx ▸ hdv
          · exact hrd x hx

/-! ### Behaviour of the association-list map operations -/

theorem mlookup_mupsert (m : List (String × β)) (id : String) (v : β) (id' : String) :
    mlookup (mupsert m id v) id' = if id' = id then some v else mlookup m id' := by
  induction m with
  | nil =>
      by_cases h : id' = id
      · simp [mupsert, mlookup, h]
      · simp [mupsert, mlookup, h, Ne.symm h]
  | cons p rest ih =>
      rcases p with ⟨a, b⟩
      by_cases hp : a = id
      · subst hp
        by_cases h : id' = a
        · simp [mupsert, mlookup, h]
        · simp [mupsert, mlookup, h, Ne.symm h]
      · by_cases h : a = id'
        · subst h
          simp [mupsert, mlookup, hp, Ne.symm hp]
        · simp [mupsert, mlookup, hp, h, ih]

theorem mlookup_merase_ne (m : List (String × β)) (id id' : String) (h : id' ≠ id) :
    mlookup (merase m id) id' = mlookup m id' := by
  induction m with
  | nil => rfl
  | cons p rest ih =>
      rcases p with ⟨a, b⟩
      by_cases hp : a = id
      · subst hp
        simp [merase, mlookup, Ne.symm h]
      · by_cases h2 : a = id'
        · subst h2
          simp [merase, mlookup, hp]
        · simp [merase, mlookup, hp, h2, ih]

theorem mlookup_none_of_not_mem_keys (m : List (String × β)) (id : String)
    (h : id ∉ m.map Prod.fst) : mlookup m id = none := by
  induction m with
  | nil => rfl
  | cons p rest ih =>
      rcases p with ⟨a, b⟩
      simp only [List.map_cons, List.mem_cons] at h
      push_neg at h
      simp [mlookup, Ne.symm h.1, ih h.2]

theorem mlookup_merase_self (m : List (String × β)) (id : String)
    (hn : (m.map Prod.fst).Nodup) : mlookup (merase m id) id = none := by
  induction m with
  | nil => rfl
  | cons p rest ih =>
      rcases p with ⟨a, b⟩
      simp only [List.map_cons, List.nodup_cons] at hn
      by_cases hp : a = id
      · subst hp
        simp only [merase, if_pos rfl]
        exact mlookup_none_of_not_mem_keys rest a hn.1
      · simp [merase, mlookup, hp, ih hn.2]

theorem mem_keys_of_mlookup_some {m : List (String × β)} {id : String} {v : β}
    (h : mlookup m id = some v) : id ∈ m.map Prod.fst := by
  induction m with
  | nil => simp [mlookup] at h
  | cons p rest ih =>
      rcases p with ⟨a, b⟩
      by_cases hp : a = id
      · simp [hp]
      · simp only [mlookup, if_neg hp] at h
        simp [ih h]

theorem keys_merase_sublist (m : List (String × β)) (id : String) :
    ((merase m id).map Prod.fst).Sublist (m.map Prod.fst) := by
  induction m with
  | nil => exact List.Sublist.refl _
  | cons p rest ih =>
      rcases p with ⟨a, b⟩
      by_cases hp : a = id
      · simp only [merase, if_pos hp, List.map_cons]
        exact List.sublist_cons_self _ _
      · simp only [merase, if_neg hp, List.map_cons]
        exact ih.cons₂ _

theorem nodupKeys_merase (m : List (String × β)) (id : String)
    (hn : (m.map Prod.fst).Nodup) : ((merase m id).map Prod.fst).Nodup :=
  (keys_merase_sublist m id).nodup hn

theorem nodupKeys_mupsert (m : List (String × β)) (id : String) (v : β)
    (hn : (m.map Prod.fst).Nodup) : ((mupsert m id v).map Prod.fst).Nodup := by
  induction m with
  | nil => simp [mupsert]
  | cons p rest ih =>
      rcases p with ⟨a, b⟩
      simp only [List.map_cons, List.nodup_cons] at hn
      by_cases hp : a = id
      · subst hp
        simpa [mupsert] using hn
      · simp only [mupsert, if_neg hp, List.map_cons, List.nodup_cons]
        refine ⟨?_, ih hn.2⟩
        intro hmem
        -- keys of mupsert are keys plus possibly id; a ∈ them means a old or a = id
        have : ∀ (l : List (String × β)), a ∈ (mupsert l id v).map Prod.fst →
            a ∈ l.map Prod.fst ∨ a = id := by
          intro l
          induction l with
          | nil => simp [mupsert]
          | cons q qs ihq =>
              rcases q with ⟨c, e⟩
              by_cases hc : c = id
              · subst hc
                simp [mupsert]
                intro hmem2
                rcases hmem2 with hmem2 | hmem2
                · exact Or.inr hmem2
                · exact Or.inl (Or.inr hmem2)
              · simp only [mupsert, if_neg hc, List.map_cons, List.mem_cons]
                intro hmem2
                rcases hmem2 with hmem2 | hmem2
                · exact Or.inl (Or.inl hmem2)
                · rcases ihq hmem2 with hh | hh
                  · exact Or.inl (Or.inr hh)
                  · exact Or.inr hh
        rcases this rest hmem with hh | hh
        · exact hn.1 hh
        · exact hp hh

/-! ### `findMin` and removal -/

theorem inorder_ne_nil {l : RTree} {d : RKey} {h s : Int} {r : RTree} :
    inorderList (.node l d h s r) ≠ [] := by
  simp [inorderList]

theorem findMinData_eq_head (t : RTree) : findMinData t = (inorderList t).head? := by
  induction t with
  | leaf => rfl
  | node l d h s r ihl ihr =>
      rcases l with _ | ⟨a, x, hx, sx, b⟩
      · simp [findMinData, inorderList]
      · rw [show findMinData (.node (.node a x hx sx b) d h s r)
              = findMinData (.node a x hx sx b) from rfl, ihl]
        rw [show inorderList (.node (.node a x hx sx b) d h s r)
              = inorderList (.node a x hx sx b) ++ d :: inorderList r from rfl]
        exact (List.head?_append_of_ne_nil _ inorder_ne_nil).symm

theorem tail_append_of_ne_nil (l₁ l₂ : List α) (h : l₁ ≠ []) :
    (l₁ ++ l₂).tail = l₁.tail ++ l₂ := by
  cases l₁ with
  | nil => exact absurd rfl h
  | cons a l => simp

theorem szOk_removeNode : ∀ (t : RTree) (v : RKey) (m : NodeMap), SzOk t →
    SzOk (removeNode t v m).1 := by
  intro t
  induction t with
  | leaf => intro v m ht; exact ht
  | node l d h s r ihl ihr =>
      intro v m ht
      obtain ⟨hl, hr⟩ := szOk_inv ht
      unfold removeNode
      split
      · rcases hrec : removeNode l v m with ⟨l', m'⟩
        have := ihl v m hl
        rw [hrec] at this
        simp only [hrec]
        exact szOk_balanceN _ this hr
      · split
        · rcases hrec : removeNode r v m with ⟨r', m'⟩
          have := ihr v m hr
          rw [hrec] at this
          simp only [hrec]
          exact szOk_balanceN _ hl this
        · rcases l with _ | ⟨a, x, hx, sx, b⟩
          · exact hr
          · rcases r with _ | ⟨b2, y, hy, sy, c⟩
            · exact hl
            · rcases hmin : findMinData (.node b2 y hy sy c) with _ | succ
              · exact ht
              · simp only [hmin]
                rcases hrec : removeNode (.node b2 y hy sy c) succ
                    (mupsert (merase m d.videoId) succ.videoId succ) with ⟨r', m2⟩
                have := ihr succ (mupsert (merase m d.videoId) succ.videoId succ) hr
                rw [hrec] at this
                exact szOk_balanceN _ hl this

/-- Removing the comparator-minimum of a BST (in particular the in-order
successor during two-child deletion) hits the one-child case at the
leftmost node, so it never touches the id map. -/
theorem removeNode_min : ∀ (t : RTree) (v : RKey) (m : NodeMap), IsBST t →
    (inorderList t).head? = some v →
    (removeNode t v m).2 = m ∧
    inorderList (removeNode t v m).1 = (inorderList t).tail ∧
    IsBST (removeNode t v m).1 := by
  intro t
  induction t with
  | leaf => intro v m _ hh; simp [inorderList] at hh
  | node l d h s r ihl ihr =>
      intro v m ht hh
      obtain ⟨hl, hr, hld, hrd⟩ := isBST_inv ht
      rcases l with _ | ⟨a, x, hx, sx, b⟩
      · -- leftmost node: v is this node's data, one-child case
        have hvd : v = d := by
          rw [show inorderList (.node .leaf d h s r) = d :: inorderList r from rfl] at hh
          simpa using hh.symm
        subst hvd
        unfold removeNode
        rw [if_neg (by simp [keyLt_irrefl]), if_neg (by simp [keyLt_irrefl])]
        exact ⟨rfl, rfl, hr⟩
      · -- descend left
        have hLne : inorderList (.node a x hx sx b) ≠ [] := inorder_ne_nil
        have hhl : (inorderList (.node a x hx sx b)).head? = some v := by
          rw [show inorderList (.node (.node a x hx sx b) d h s r)
                = inorderList (.node a x hx sx b) ++ d :: inorderList r from rfl] at hh
          rwa [List.head?_append_of_ne_nil _ hLne] at hh
        have hvmem : v ∈ inorderList (.node a x hx sx b) := by
          cases hmem : inorderList (.node a x hx sx b) with
          | nil => exact absurd hmem hLne
          | cons c cs =>
              rw [hmem] at hhl
              simp at hhl
              simp [hmem, hhl]
        have hvd : keyLt v d = true := hld v hvmem
        unfold removeNode
        rw [if_pos hvd]
        rcases hrec : removeNode (.node a x hx sx b) v m with ⟨l', m'⟩
        obtain ⟨hm', hio, hbst'⟩ := by
          have := ihl v m hl hhl
          rwa [hrec] at this
        simp only [hrec]
        refine ⟨hm', ?_, ?_⟩
        · rw [inorder_balanceN, hio,
            show inorderList (.node (.node a x hx sx b) d h s r)
              = inorderList (.node a x hx sx b) ++ d :: inorderList r from rfl,
            tail_append_of_ne_nil _ _ hLne]
        · refine isBST_balanceN hbst' hr ?_ hrd
          intro z hz
          rw [hio] at hz
          exact hld z (List.mem_of_mem_tail hz)

/-- `removeNode` under the BST invariant, provided no member other than
`v` itself is comparator-equivalent to `v`: the traversal sheds exactly
the one occurrence of `v` (or nothing, when `v` is absent), preserves the
BST invariant, and changes the id map at most at `v`'s own id. -/
theorem removeNode_spec : ∀ (t : RTree) (v : RKey) (m : NodeMap), IsBST t →
    (∀ x ∈ inorderList t, keyLt x v = false → keyLt v x = false → x = v) →
    ((inorderList t).map RKey.videoId).Nodup →
    (∀ x ∈ inorderList t, mlookup m x.videoId = some x) →
    inorderList (removeNode t v m).1 = (inorderList t).erase v ∧
    (∀ id', id' ≠ v.videoId → mlookup (removeNode t v m).2 id' = mlookup m id') ∧
    IsBST (removeNode t v m).1 ∧
    ((m.map Prod.fst).Nodup → (((removeNode t v m).2).map Prod.fst).Nodup) := by
  intro t
  induction t with
  | leaf =>
      intro v m _ _ _ _
      exact ⟨rfl, fun id' _ => rfl, .leaf, fun hn => hn⟩
  | node l d h s r ihl ihr =>
      intro v m ht huniq hids hcons
      obtain ⟨hl, hr, hld, hrd⟩ := isBST_inv ht
      have hLsub : (inorderList l).Sublist (inorderList (.node l d h s r)) := by
        rw [show inorderList (.node l d h s r)
              = inorderList l ++ d :: inorderList r from rfl]
        exact List.sublist_append_left _ _
      have hRsub : (inorderList r).Sublist (inorderList (.node l d h s r)) := by
        rw [show inorderList (.node l d h s r)
              = inorderList l ++ d :: inorderList r from rfl]
        exact ((List.sublist_cons_self _ _).trans (List.sublist_append_right _ _))
      by_cases hvd : keyLt v d = true
      · -- descend left
        have hvnotd : v ≠ d := by
          intro he
          rw [he] at hvd
          simp [keyLt_irrefl] at hvd
        have hvnotr : v ∉ inorderList r := by
          intro hmem
          have := keyLt_trans hvd (hrd v hmem)
          simp [keyLt_irrefl] at this
        obtain ⟨hio, hmap, hbst', hnk⟩ := ihl v m hl
          (fun x hx => huniq x (mem_inorder_node.mpr (Or.inl hx)))
          ((hLsub.map RKey.videoId).nodup hids)
          (fun x hx => hcons x (mem_inorder_node.mpr (Or.inl hx)))
        unfold removeNode
        rw [if_pos hvd]
        dsimp only
        refine ⟨?_, hmap, ?_, hnk⟩
        · rw [inorder_balanceN, hio,
            show inorderList (.node l d h s r)
              = inorderList l ++ d :: inorderList r from rfl]
          by_cases hvl : v ∈ inorderList l
          · rw [List.erase_append_left _ hvl]
          · rw [List.erase_of_not_mem hvl, List.erase_append_right _ hvl,
              List.erase_of_not_mem (by simp [hvnotd, hvnotr])]
        · refine isBST_balanceN hbst' hr ?_ hrd
          intro z hz
          rw [hio] at hz
          exact hld z (List.mem_of_mem_erase hz)
      · by_cases hdv : keyLt d v = true
        · -- descend right
          have hvnotd : v ≠ d := by
            intro he
            rw [he] at hdv
            simp [keyLt_irrefl] at hdv
          have hvnotl : v ∉ inorderList l := by
            intro hmem
            have := keyLt_trans (hld v hmem) hdv
            simp [keyLt_irrefl] at this
          obtain ⟨hio, hmap, hbst', hnk⟩ := ihr v m hr
            (fun x hx => huniq x (mem_inorder_node.mpr (Or.inr (Or.inr hx))))
            ((hRsub.map RKey.videoId).nodup hids)
            (fun x hx => hcons x (mem_inorder_node.mpr (Or.inr (Or.inr hx))))
          unfold removeNode
          rw [if_neg hvd, if_pos hdv]
          dsimp only
          refine ⟨?_, hmap, ?_, hnk⟩
          · have hdvne : ¬(d = v) := fun hh => hvnotd hh.symm
            rw [inorder_balanceN, hio,
              show inorderList (.node l d h s r)
                = inorderList l ++ d :: inorderList r from rfl,
              List.erase_append_right _ hvnotl, List.erase_cons_tail]
            simp [hdvne]
          · refine isBST_balanceN hl hbst' hld ?_
            intro z hz
            rw [hio] at hz
            exact hrd z (List.mem_of_mem_erase hz)
        · -- comparator-equivalent: this is the node to delete, and d = v
          have hdev : d = v := huniq d (mem_inorder_node.mpr (Or.inr (Or.inl rfl)))
            (by simpa using hdv) (by simpa using hvd)
          subst hdev
          have hdnotl : d ∉ inorderList l := by
            intro hmem
            have := hld d hmem
            simp [keyLt_irrefl] at this
          unfold removeNode
          rw [if_neg hvd, if_neg hdv]
          rcases l with _ | ⟨a, x, hx2, sx, b⟩
          · -- no left child: replaced by the right child, map untouched
            refine ⟨?_, fun id' _ => rfl, hr, fun hn => hn⟩
            rw [show inorderList (.node .leaf d h s r) = d :: inorderList r from rfl,
              List.erase_cons_head]
          · rcases r with _ | ⟨b2, y, hy, sy, c⟩
            · -- no right child: replaced by the left child, map untouched
              refine ⟨?_, fun id' _ => rfl, hl, fun hn => hn⟩
              rw [show inorderList (.node (.node a x hx2 sx b) d h s .leaf)
                    = inorderList (.node a x hx2 sx b) ++ [d] from rfl,
                List.erase_append_right _ hdnotl, List.erase_cons_head, List.append_nil]
            · -- two children: successor replacement
              set L := RTree.node a x hx2 sx b with hLdef
              set R := RTree.node b2 y hy sy c with hRdef
              have hRne : inorderList R ≠ [] := inorder_ne_nil
              rcases hRlist : inorderList R with _ | ⟨succ0, rest⟩
              · exact absurd hRlist hRne
              have hminR : findMinData R = some succ0 := by
                rw [findMinData_eq_head, hRlist]
                rfl
              have hsuccmem : succ0 ∈ inorderList R := by
                rw [hRlist]
                exact List.mem_cons_self _ _
              have hsucc_t : succ0 ∈ inorderList (.node L d h s R) :=
                mem_inorder_node.mpr (Or.inr (Or.inr hsuccmem))
              have hdS : keyLt d succ0 = true := hrd succ0 hsuccmem
              have hsucc_ne_d : succ0 ≠ d := by
                intro he
                rw [he] at hdS
                simp [keyLt_irrefl] at hdS
              have hsuccid_ne : succ0.videoId ≠ d.videoId := by
                intro he
                exact hsucc_ne_d (List.inj_on_of_nodup_map hids hsucc_t
                  (mem_inorder_node.mpr (Or.inr (Or.inl rfl))) he)
              -- the successor removal from R never touches the map
              have hmin := removeNode_min R succ0
                (mupsert (merase m d.videoId) succ0.videoId succ0) hr
                (by rw [hRlist]; rfl)
              rw [hminR]
              dsimp only
              obtain ⟨hm2, hio2, hbst2⟩ := hmin
              refine ⟨?_, ?_, ?_, ?_⟩
              · rw [inorder_balanceN, hio2, hRlist,
                  show inorderList (.node L d h s R)
                    = inorderList L ++ d :: inorderList R from rfl,
                  List.erase_append_right _ hdnotl, List.erase_cons_head, hRlist]
                rfl
              · intro id' hne
                rw [hm2, mlookup_mupsert]
                by_cases hids' : id' = succ0.videoId
                · rw [if_pos hids', hids']
                  exact (hcons succ0 hsucc_t).symm
                · rw [if_neg hids', mlookup_merase_ne _ _ _ hne]
              · refine isBST_balanceN hl hbst2 ?_ ?_
                · intro z hz
                  exact keyLt_trans (hld z hz) hdS
                · intro z hz
                  rw [hio2, hRlist] at hz
                  have hp := isBST_pairwise hr
                  rw [hRlist] at hp
                  exact (List.pairwise_cons.mp hp).1 z hz
              · intro hn
                rw [hm2]
                exact nodupKeys_mupsert _ _ _ (nodupKeys_merase _ _ hn)

/-! ### Well-formedness of the whole `RankAVLTree` object -/

/-- Invariants of every reachable `RankAVLTree`: BST order, distinct
video ids across nodes, id map mirroring the tree exactly, correct size
counter, correct subtree-size fields. -/
structure TreeWF (t : RankTree) : Prop where
  bst : IsBST t.root
  ids : ((inorderList t.root).map RKey.videoId).Nodup
  mapkeys : (t.nodeMap.map Prod.fst).Nodup
  maps : ∀ id k, mlookup t.nodeMap id = some k ↔ (k ∈ inorderList t.root ∧ k.videoId = id)
  size : t.size_ = (inorderList t.root).length
  szok : SzOk t.root

theorem treeWF_empty : TreeWF RankTree.empty := by
  refine ⟨.leaf, by simp [RankTree.empty, inorderList], by simp [RankTree.empty], ?_,
    rfl, .leaf⟩
  intro id k
  simp [RankTree.empty, mlookup, inorderList]

theorem contents_nodup {t : RankTree} (h : TreeWF t) : (inorderList t.root).Nodup :=
  h.ids.of_map

/-- `RankAVLTree::insert` on a well-formed tree, with a key that is
neither comparator-equivalent to a member nor reusing a member's id. -/
theorem insert_WF (t : RankTree) (v : RKey) (h : TreeWF t)
    (hnev : ∀ x ∈ inorderList t.root, keyLt v x = true ∨ keyLt x v = true)
    (hfresh : v.videoId ∉ (inorderList t.root).map RKey.videoId) :
    TreeWF (t.insert v) ∧
    List.Perm (inorderList (t.insert v).root) (v :: inorderList t.root) ∧
    (∀ id', mlookup (t.insert v).nodeMap id'
      = if id' = v.videoId then some v else mlookup t.nodeMap id') := by
  have hperm := perm_insertNode t.root v
  have hlook : ∀ id', mlookup (t.insert v).nodeMap id'
      = if id' = v.videoId then some v else mlookup t.nodeMap id' := by
    intro id'
    exact mlookup_mupsert t.nodeMap v.videoId v id'
  refine ⟨⟨isBST_insertNode h.bst hnev, ?_, ?_, ?_, ?_, szOk_insertNode v h.szok⟩,
    hperm, hlook⟩
  · exact ((hperm.map RKey.videoId).nodup_iff).mpr (by simp [hfresh, h.ids])
  · exact nodupKeys_mupsert _ _ _ h.mapkeys
  · intro id k
    rw [hlook id]
    by_cases hid : id = v.videoId
    · subst hid
      simp only [if_pos rfl]
      constructor
      · intro hvk
        have hvk' : v = k := by simpa using hvk
        subst hvk'
        exact ⟨hperm.mem_iff.mpr (List.mem_cons_self _ _), rfl⟩
      · rintro ⟨hmem, hkid⟩
        rcases List.mem_cons.mp (hperm.mem_iff.mp hmem) with hkv | hmem2
        · simp [hkv]
        · exact absurd (hkid ▸ List.mem_map_of_mem RKey.videoId hmem2) hfresh
    · rw [if_neg hid, h.maps]
      constructor
      · rintro ⟨hmem, rfl⟩
        exact ⟨hperm.mem_iff.mpr (List.mem_cons_of_mem _ hmem), rfl⟩
      · rintro ⟨hmem, rfl⟩
        rcases List.mem_cons.mp (hperm.mem_iff.mp hmem) with hkv | hmem2
        · exact absurd (congrArg RKey.videoId hkv) hid
        · exact ⟨hmem2, rfl⟩
  · show t.size_ + 1 = (inorderList (insertNode t.root v)).length
    rw [h.size, hperm.length_eq]
    rfl

/-- `RankAVLTree::removeById` on a well-formed tree for a present id:
exactly that node leaves the tree and the map. -/
theorem removeById_WF (t : RankTree) (id : String) (d : RKey) (h : TreeWF t)
    (hlook : mlookup t.nodeMap id = some d) :
    TreeWF (t.removeById id).1 ∧
    inorderList (t.removeById id).1.root = (inorderList t.root).erase d ∧
    (∀ id', mlookup (t.removeById id).1.nodeMap id'
      = if id' = id then none else mlookup t.nodeMap id') ∧
    (t.removeById id).2 = true := by
  obtain ⟨hdmem, hdid⟩ := (h.maps id d).mp hlook
  have huniq : ∀ x ∈ inorderList t.root, keyLt x d = false → keyLt d x = false → x = d :=
    fun x hx h1 h2 => isBST_uniq h.bst hx hdmem h1 h2
  have hcons : ∀ x ∈ inorderList t.root, mlookup t.nodeMap x.videoId = some x :=
    fun x hx => (h.maps x.videoId x).mpr ⟨hx, rfl⟩
  obtain ⟨hio, hmap, hbst, hnk⟩ := removeNode_spec t.root d t.nodeMap h.bst huniq h.ids hcons
  have hres : t.removeById id
      = ({ root := (removeNode t.root d t.nodeMap).1, size_ := t.size_ - 1,
           nodeMap := merase (removeNode t.root d t.nodeMap).2 id }, true) := by
    unfold RankTree.removeById
    rw [hlook]
  have hlook' : ∀ id', mlookup (t.removeById id).1.nodeMap id'
      = if id' = id then none else mlookup t.nodeMap id' := by
    intro id'
    rw [hres]
    by_cases hid : id' = id
    · subst hid
      simp only [if_pos rfl]
      exact mlookup_merase_self _ _ (hnk h.mapkeys)
    · rw [if_neg hid]
      rw [mlookup_merase_ne _ _ _ hid]
      exact hmap id' (hdid ▸ hid)
  refine ⟨⟨?_, ?_, ?_, ?_, ?_, ?_⟩, ?_, hlook', by rw [hres]⟩
  · rw [hres]
    exact hbst
  · rw [hres]
    dsimp only
    rw [hio]
    exact ((List.erase_sublist _ _).map RKey.videoId).nodup h.ids
  · rw [hres]
    exact nodupKeys_merase _ _ (hnk h.mapkeys)
  · intro id' k
    rw [hlook' id']
    rw [show (t.removeById id).1.root = (removeNode t.root d t.nodeMap).1 by rw [hres], hio]
    by_cases hid : id' = id
    · subst hid
      simp only [if_pos rfl]
      constructor
      · intro hcontra
        exact absurd hcontra (by simp)
      · rintro ⟨hmem, rfl⟩
        have hkd : k = d := List.inj_on_of_nodup_map h.ids
          (List.mem_of_mem_erase hmem) hdmem (hdid ▸ rfl)
        subst hkd
        exact absurd hmem (by
          intro hmem2
          exact absurd ((List.Nodup.mem_erase_iff (contents_nodup h)).mp hmem2).1
            (by simp))
    · rw [if_neg hid, h.maps]
      constructor
      · rintro ⟨hmem, rfl⟩
        refine ⟨(List.Nodup.mem_erase_iff (contents_nodup h)).mpr ⟨?_, hmem⟩, rfl⟩
        intro hkd
        exact hid (by rw [hkd, hdid])
      · rintro ⟨hmem, rfl⟩
        exact ⟨List.mem_of_mem_erase hmem, rfl⟩
  · rw [hres]
    dsimp only
    rw [h.size, hio, List.length_erase_of_mem hdmem]
  · rw [hres]
    dsimp only
    exact szOk_removeNode t.root d t.nodeMap h.szok
  · rw [hres]
    dsimp only
    exact hio

/-- For a present id, `RankAVLTree::update` is `removeById` followed by
`insert` of the new data. -/
theorem update_eq_remove_insert (t : RankTree) (id : String) (nk : RKey) (d : RKey)
    (hlook : mlookup t.nodeMap id = some d) :
    t.update id nk = (((t.removeById id).1).insert nk, true) := by
  unfold RankTree.update RankTree.removeById
  rw [hlook]

/-- `RankAVLTree::update` on a well-formed tree: the node with the given
id is replaced by the new data. -/
theorem update_WF (t : RankTree) (id : String) (nk d : RKey) (h : TreeWF t)
    (hlook : mlookup t.nodeMap id = some d)
    (hnkid : nk.videoId = id)
    (hnev : ∀ x ∈ (inorderList t.root).erase d,
      keyLt nk x = true ∨ keyLt x nk = true) :
    TreeWF (t.update id nk).1 ∧
    List.Perm (inorderList (t.update id nk).1.root) (nk :: (inorderList t.root).erase d) := by
  obtain ⟨hWF1, hio1, hlk1, _⟩ := removeById_WF t id d h hlook
  obtain ⟨hdmem, hdid⟩ := (h.maps id d).mp hlook
  have hfresh : nk.videoId ∉ (inorderList (t.removeById id).1.root).map RKey.videoId := by
    rw [hio1, hnkid]
    intro hmem
    obtain ⟨y, hy, hyid⟩ := List.mem_map.mp hmem
    have hyd : y = d := List.inj_on_of_nodup_map h.ids (List.mem_of_mem_erase hy) hdmem
      (by rw [hyid, hdid])
    subst hyd
    exact ((List.Nodup.mem_erase_iff (contents_nodup h)).mp hy).1 rfl
  have hnev' : ∀ x ∈ inorderList (t.removeById id).1.root,
      keyLt nk x = true ∨ keyLt x nk = true := by
    rw [hio1]
    exact hnev
  obtain ⟨hWF2, hperm2, hlk2⟩ := insert_WF _ nk hWF1 hnev' hfresh
  rw [update_eq_remove_insert t id nk d hlook]
  rw [hio1] at hperm2
  exact ⟨hWF2, hperm2⟩

/-! ### The three phases of `refresh_AVLTree` -/

/-- Phase 2 of the tree refresh: performing all queued removals.  Each
queued id is present, ids are distinct; afterwards exactly the members
with queued ids are gone. -/
theorem fold_removeById_WF :
    ∀ (ids : List String) (t : RankTree), TreeWF t → ids.Nodup →
      (∀ id ∈ ids, ∃ k ∈ inorderList t.root, k.videoId = id) →
      TreeWF (ids.foldl (fun acc id => (acc.removeById id).1) t) ∧
      (∀ x, x ∈ inorderList (ids.foldl (fun acc id => (acc.removeById id).1) t).root
        ↔ (x ∈ inorderList t.root ∧ x.videoId ∉ ids)) := by
  intro ids
  induction ids with
  | nil =>
      intro t hWF _ _
      exact ⟨hWF, by simp⟩
  | cons id0 rest ih =>
      intro t hWF hnd hpres
      obtain ⟨d0, hd0mem, hd0id⟩ := hpres id0 (List.mem_cons_self _ _)
      have hlook : mlookup t.nodeMap id0 = some d0 := (hWF.maps id0 d0).mpr ⟨hd0mem, hd0id⟩
      obtain ⟨hWF1, hio1, hlk1, _⟩ := removeById_WF t id0 d0 hWF hlook
      rw [List.foldl_cons]
      have hpres' : ∀ id ∈ rest,
          ∃ k ∈ inorderList (t.removeById id0).1.root, k.videoId = id := by
        intro id hid
        obtain ⟨k, hk, hkid⟩ := hpres id (List.mem_cons_of_mem _ hid)
        refine ⟨k, ?_, hkid⟩
        rw [hio1]
        refine (List.Nodup.mem_erase_iff (contents_nodup hWF)).mpr ⟨?_, hk⟩
        intro hkd
        apply (List.nodup_cons.mp hnd).1
        have hii : id = id0 := by rw [← hkid, hkd, hd0id]
        rwa [hii] at hid
      obtain ⟨hWFf, hmemf⟩ := ih (t.removeById id0).1 hWF1 (List.nodup_cons.mp hnd).2 hpres'
      refine ⟨hWFf, ?_⟩
      intro x
      rw [hmemf x, hio1]
      constructor
      · rintro ⟨hx, hnin⟩
        have hx' := (List.Nodup.mem_erase_iff (contents_nodup hWF)).mp hx
        refine ⟨hx'.2, ?_⟩
        intro hmem
        rcases List.mem_cons.mp hmem with hh | hh
        · exact hx'.1 (List.inj_on_of_nodup_map hWF.ids hx'.2 hd0mem (by rw [hh, hd0id]))
        · exact hnin hh
      · rintro ⟨hx, hnin⟩
        refine ⟨(List.Nodup.mem_erase_iff (contents_nodup hWF)).mpr ⟨?_, hx⟩, ?_⟩
        · intro hxd
          apply hnin
          rw [hxd, hd0id]
          exact List.mem_cons_self _ _
        · intro hmem
          exact hnin (List.mem_cons_of_mem _ hmem)

/-- Phase 3 of the tree refresh: performing all queued updates.  Each
queued id is present and keeps its id; afterwards each queued id holds
its new key and everything else is untouched. -/
theorem fold_update_WF :
    ∀ (ps : List (String × RKey)) (t : RankTree), TreeWF t →
      (ps.map Prod.fst).Nodup →
      (∀ p ∈ ps, p.2.videoId = p.1) →
      (∀ p ∈ ps, ∃ k ∈ inorderList t.root, k.videoId = p.1) →
      (∀ p ∈ ps, ∀ x ∈ inorderList t.root, x.videoId ≠ p.1 →
        keyLt p.2 x = true ∨ keyLt x p.2 = true) →
      (∀ p ∈ ps, ∀ q ∈ ps, p.1 ≠ q.1 →
        keyLt p.2 q.2 = true ∨ keyLt q.2 p.2 = true) →
      TreeWF (ps.foldl (fun acc p => (acc.update p.1 p.2).1) t) ∧
      (∀ x, x ∈ inorderList (ps.foldl (fun acc p => (acc.update p.1 p.2).1) t).root
        ↔ ((∃ p ∈ ps, x = p.2) ∨
           (x ∈ inorderList t.root ∧ x.videoId ∉ ps.map Prod.fst))) := by
  intro ps
  induction ps with
  | nil =>
      intro t hWF _ _ _ _ _
      exact ⟨hWF, by simp⟩
  | cons p0 rest ih =>
      intro t hWF hnd hvid hpres hne1 hne2
      obtain ⟨d0, hd0mem, hd0id⟩ := hpres p0 (List.mem_cons_self _ _)
      have hlook : mlookup t.nodeMap p0.1 = some d0 := (hWF.maps p0.1 d0).mpr ⟨hd0mem, hd0id⟩
      have hinjd0 : ∀ x ∈ inorderList t.root, x.videoId = p0.1 → x = d0 := by
        intro x hx hxid
        exact List.inj_on_of_nodup_map hWF.ids hx hd0mem (by rw [hxid, hd0id])
      have hnev : ∀ x ∈ (inorderList t.root).erase d0,
          keyLt p0.2 x = true ∨ keyLt x p0.2 = true := by
        intro x hx
        obtain ⟨hxne, hxmem⟩ := (List.Nodup.mem_erase_iff (contents_nodup hWF)).mp hx
        refine hne1 p0 (List.mem_cons_self _ _) x hxmem ?_
        intro hxid
        exact hxne (hinjd0 x hxmem hxid)
      obtain ⟨hWF1, hperm1⟩ := update_WF t p0.1 p0.2 d0 hWF hlook
        (hvid p0 (List.mem_cons_self _ _)) hnev
      rw [List.foldl_cons]
      have hfst0 : p0.1 ∉ rest.map Prod.fst := (List.nodup_cons.mp hnd).1
      have hpres' : ∀ p ∈ rest,
          ∃ k ∈ inorderList (t.update p0.1 p0.2).1.root, k.videoId = p.1 := by
        intro p hp
        obtain ⟨k, hk, hkid⟩ := hpres p (List.mem_cons_of_mem _ hp)
        have hpne : p.1 ≠ p0.1 := by
          intro he
          exact hfst0 (he ▸ List.mem_map_of_mem Prod.fst hp)
        refine ⟨k, ?_, hkid⟩
        rw [hperm1.mem_iff]
        refine List.mem_cons_of_mem _ ?_
        refine (List.Nodup.mem_erase_iff (contents_nodup hWF)).mpr ⟨?_, hk⟩
        intro hkd
        exact hpne (by rw [← hkid, hkd, hd0id])
      have hne1' : ∀ p ∈ rest, ∀ x ∈ inorderList (t.update p0.1 p0.2).1.root,
          x.videoId ≠ p.1 → keyLt p.2 x = true ∨ keyLt x p.2 = true := by
        intro p hp x hx hxid
        rcases List.mem_cons.mp (hperm1.mem_iff.mp hx) with hx2 | hx2
        · subst hx2
          have hpne : p.1 ≠ p0.1 := by
            intro he
            exact hfst0 (he ▸ List.mem_map_of_mem Prod.fst hp)
          exact hne2 p (List.mem_cons_of_mem _ hp) p0 (List.mem_cons_self _ _) hpne
        · exact hne1 p (List.mem_cons_of_mem _ hp) x (List.mem_of_mem_erase hx2) hxid
      have hne2' : ∀ p ∈ rest, ∀ q ∈ rest, p.1 ≠ q.1 →
          keyLt p.2 q.2 = true ∨ keyLt q.2 p.2 = true := by
        intro p hp q hq
        exact hne2 p (List.mem_cons_of_mem _ hp) q (List.mem_cons_of_mem _ hq)
      obtain ⟨hWFf, hmemf⟩ := ih (t.update p0.1 p0.2).1 hWF1 (List.nodup_cons.mp hnd).2
        (fun p hp => hvid p (List.mem_cons_of_mem _ hp)) hpres' hne1' hne2'
      refine ⟨hWFf, ?_⟩
      intro x
      rw [hmemf x]
      constructor
      · rintro (⟨p, hp, rfl⟩ | ⟨hx, hnin⟩)
        · exact Or.inl ⟨p, List.mem_cons_of_mem _ hp, rfl⟩
        · rcases List.mem_cons.mp (hperm1.mem_iff.mp hx) with hx2 | hx2
          · exact Or.inl ⟨p0, List.mem_cons_self _ _, hx2⟩
          · obtain ⟨hxne, hxmem⟩ := (List.Nodup.mem_erase_iff (contents_nodup hWF)).mp hx2
            refine Or.inr ⟨hxmem, ?_⟩
            intro hmem
            rcases List.mem_cons.mp hmem with hh | hh
            · exact hxne (hinjd0 x hxmem hh)
            · exact hnin hh
      · rintro (⟨p, hp, rfl⟩ | ⟨hx, hnin⟩)
        · rcases List.mem_cons.mp hp with hh | hh
          · subst hh
            refine Or.inr ⟨hperm1.mem_iff.mpr (List.mem_cons_self _ _), ?_⟩
            rw [hvid p (List.mem_cons_self _ _)]
            exact hfst0
          · exact Or.inl ⟨p, hh, rfl⟩
        · have hxne0 : x.videoId ≠ p0.1 := by
            intro he
            exact hnin (he ▸ List.mem_cons_self _ _)
          refine Or.inr ⟨?_, ?_⟩
          · rw [hperm1.mem_iff]
            refine List.mem_cons_of_mem _ ?_
            refine (List.Nodup.mem_erase_iff (contents_nodup hWF)).mpr ⟨?_, hx⟩
            intro hxd
            exact hxne0 (by rw [hxd, hd0id])
          · intro hmem
            exact hnin (List.mem_cons_of_mem _ hmem)

/-- Phase 4 of the tree refresh (and the initial bulk build): inserting
a batch of fresh-id, pairwise non-equivalent keys. -/
theorem fold_insert_WF :
    ∀ (ps : List (String × RKey)) (t : RankTree), TreeWF t →
      (ps.map Prod.fst).Nodup →
      (∀ p ∈ ps, p.2.videoId = p.1) →
      (∀ p ∈ ps, p.1 ∉ (inorderList t.root).map RKey.videoId) →
      (∀ p ∈ ps, ∀ x ∈ inorderList t.root,
        keyLt p.2 x = true ∨ keyLt x p.2 = true) →
      (∀ p ∈ ps, ∀ q ∈ ps, p.1 ≠ q.1 →
        keyLt p.2 q.2 = true ∨ keyLt q.2 p.2 = true) →
      TreeWF (ps.foldl (fun acc p => acc.insert p.2) t) ∧
      (∀ x, x ∈ inorderList (ps.foldl (fun acc p => acc.insert p.2) t).root
        ↔ ((∃ p ∈ ps, x = p.2) ∨ x ∈ inorderList t.root)) := by
  intro ps
  induction ps with
  | nil =>
      intro t hWF _ _ _ _ _
      exact ⟨hWF, by simp⟩
  | cons p0 rest ih =>
      intro t hWF hnd hvid hfresh hne1 hne2
      have hfst0 : p0.1 ∉ rest.map Prod.fst := (List.nodup_cons.mp hnd).1
      have hv0 : p0.2.videoId = p0.1 := hvid p0 (List.mem_cons_self _ _)
      obtain ⟨hWF1, hperm1, hlk1⟩ := insert_WF t p0.2 hWF
        (fun x hx => hne1 p0 (List.mem_cons_self _ _) x hx)
        (by rw [hv0]; exact hfresh p0 (List.mem_cons_self _ _))
      rw [List.foldl_cons]
      have hids1 : ∀ p ∈ rest, p.1 ∉ (inorderList (t.insert p0.2).root).map RKey.videoId := by
        intro p hp hmem
        obtain ⟨y, hy, hyid⟩ := List.mem_map.mp hmem
        rcases List.mem_cons.mp (hperm1.mem_iff.mp hy) with hh | hh
        · have hpp : p.1 = p0.1 := by rw [← hyid, hh, hv0]
          exact hfst0 (hpp ▸ List.mem_map_of_mem Prod.fst hp)
        · exact hfresh p (List.mem_cons_of_mem _ hp) (hyid ▸ List.mem_map_of_mem RKey.videoId hh)
      have hne1' : ∀ p ∈ rest, ∀ x ∈ inorderList (t.insert p0.2).root,
          keyLt p.2 x = true ∨ keyLt x p.2 = true := by
        intro p hp x hx
        rcases List.mem_cons.mp (hperm1.mem_iff.mp hx) with hh | hh
        · subst hh
          refine hne2 p (List.mem_cons_of_mem _ hp) p0 (List.mem_cons_self _ _) ?_
          intro he
          exact hfst0 (he ▸ List.mem_map_of_mem Prod.fst hp)
        · exact hne1 p (List.mem_cons_of_mem _ hp) x hh
      obtain ⟨hWFf, hmemf⟩ := ih (t.insert p0.2) hWF1 (List.nodup_cons.mp hnd).2
        (fun p hp => hvid p (List.mem_cons_of_mem _ hp)) hids1 hne1'
        (fun p hp q hq => hne2 p (List.mem_cons_of_mem _ hp) q (List.mem_cons_of_mem _ hq))
      refine ⟨hWFf, ?_⟩
      intro x
      rw [hmemf x]
      constructor
      · rintro (⟨p, hp, rfl⟩ | hx)
        · exact Or.inl ⟨p, List.mem_cons_of_mem _ hp, rfl⟩
        · rcases List.mem_cons.mp (hperm1.mem_iff.mp hx) with hh | hh
          · exact Or.inl ⟨p0, List.mem_cons_self _ _, hh⟩
          · exact Or.inr hh
      · rintro (⟨p, hp, rfl⟩ | hx)
        · rcases List.mem_cons.mp hp with hh | hh
          · subst hh
            exact Or.inr (hperm1.mem_iff.mpr (List.mem_cons_self _ _))
          · exact Or.inl ⟨p, hh, rfl⟩
        · exact Or.inr (hperm1.mem_iff.mpr (List.mem_cons_of_mem _ hx))

/-! ### Characterisation of the in-order scan -/

theorem mlookup_some_mem {m : List (String × β)} {id : String} {v : β}
    (h : mlookup m id = some v) : (id, v) ∈ m := by
  induction m with
  | nil => simp [mlookup] at h
  | cons p rest ih =>
      rcases p with ⟨a, b⟩
      by_cases hp : a = id
      · subst hp
        simp only [mlookup, if_pos rfl] at h
        simp [← Option.some.injEq _ _ |>.mp h]
      · simp only [mlookup, if_neg hp] at h
        exact List.mem_cons_of_mem _ (ih h)

theorem mem_mlookup {m : List (String × β)} {id : String} {v : β}
    (hn : (m.map Prod.fst).Nodup) (h : (id, v) ∈ m) : mlookup m id = some v := by
  induction m with
  | nil => simp at h
  | cons p rest ih =>
      rcases p with ⟨a, b⟩
      simp only [List.map_cons, List.nodup_cons] at hn
      rcases List.mem_cons.mp h with hh | hh
      · have hh1 : a = id := congrArg Prod.fst hh.symm
        have hh2 : b = v := congrArg Prod.snd hh.symm
        rw [hh1]
        simp only [mlookup, if_pos rfl]
        exact congrArg some hh2
      · by_cases hp : a = id
        · subst hp
          exact absurd (List.mem_map_of_mem Prod.fst hh) hn.1
        · simp only [mlookup, if_neg hp]
          exact ih hn.2 hh

theorem merase_sublist (m : List (String × β)) (id : String) :
    (merase m id).Sublist m := by
  induction m with
  | nil => exact List.Sublist.refl _
  | cons p rest ih =>
      rcases p with ⟨a, b⟩
      by_cases hp : a = id
      · simp only [merase, if_pos hp]
        exact List.sublist_cons_self _ _
      · simp only [merase, if_neg hp]
        exact ih.cons₂ _

/-- The accumulator-generalised scan: the removal queue gains the ids
absent from the map, the update queue gains (id, new key) for the
score-changed present ids, and the residue is the map minus all visited
ids. -/
theorem scanFold_spec :
    ∀ (items : List RKey) (A : List String) (B : List (String × RKey)) (M : NodeMap),
      ((items.map RKey.videoId).Nodup) → ((M.map Prod.fst).Nodup) →
      (items.foldl scanStep (A, B, M)).1
        = A ++ (items.filter (fun it => (mlookup M it.videoId).isNone)).map RKey.videoId ∧
      (items.foldl scanStep (A, B, M)).2.1
        = B ++ items.filterMap (fun it =>
            match mlookup M it.videoId with
            | some nk => if it.value ≠ nk.value then some (it.videoId, nk) else none
            | none => none) ∧
      ((items.foldl scanStep (A, B, M)).2.2).Sublist M ∧
      (∀ id', mlookup (items.foldl scanStep (A, B, M)).2.2 id'
        = if id' ∈ items.map RKey.videoId then none else mlookup M id') := by
  intro items
  induction items with
  | nil =>
      intro A B M _ _
      refine ⟨by simp, by simp, List.Sublist.refl _, ?_⟩
      intro id'
      simp
  | cons it rest ih =>
      intro A B M hnd hM
      have hit_nin : it.videoId ∉ rest.map RKey.videoId := (List.nodup_cons.mp hnd).1
      have hrest_nd : (rest.map RKey.videoId).Nodup := (List.nodup_cons.mp hnd).2
      rw [List.foldl_cons]
      rcases hm : mlookup M it.videoId with _ | nk
      · -- absent: queued for removal, map untouched
        have hstep : scanStep (A, B, M) it = (A ++ [it.videoId], B, M) := by
          unfold scanStep
          rw [hm]
        rw [hstep]
        obtain ⟨h1, h2, h3, h4⟩ := ih (A ++ [it.videoId]) B M hrest_nd hM
        refine ⟨?_, ?_, h3, ?_⟩
        · rw [h1, List.filter_cons_of_pos (by simp [hm]), List.map_cons, List.append_assoc]
          rfl
        · rw [h2, List.filterMap_cons_none (by simp [hm])]
        · intro id'
          rw [h4 id']
          by_cases hid : id' ∈ rest.map RKey.videoId
          · simp [hid]
          · by_cases hid2 : id' = it.videoId
            · subst hid2
              simp [hid, hm]
            · simp [hid, hid2]
      · -- present: possibly queued for update, erased from the map
        have hstep : scanStep (A, B, M) it
            = (A, if it.value ≠ nk.value then B ++ [(it.videoId, nk)] else B,
               merase M it.videoId) := by
          unfold scanStep
          rw [hm]
        rw [hstep]
        have hM' : ((merase M it.videoId).map Prod.fst).Nodup := nodupKeys_merase _ _ hM
        obtain ⟨h1, h2, h3, h4⟩ := ih A
          (if it.value ≠ nk.value then B ++ [(it.videoId, nk)] else B)
          (merase M it.videoId) hrest_nd hM'
        have hlkeq : ∀ it' ∈ rest,
            mlookup (merase M it.videoId) it'.videoId = mlookup M it'.videoId := by
          intro it' hit'
          refine mlookup_merase_ne _ _ _ ?_
          intro he
          exact hit_nin (he ▸ List.mem_map_of_mem RKey.videoId hit')
        refine ⟨?_, ?_, h3.trans (merase_sublist M it.videoId), ?_⟩
        · rw [h1, List.filter_cons_of_neg (by simp [hm]),
            List.filter_congr (fun it' hit' => by rw [hlkeq it' hit'])]
        · rw [h2, List.filterMap_cons, hm]
          rw [List.filterMap_congr (fun it' hit' => by rw [hlkeq it' hit'])]
          by_cases hval : it.value ≠ nk.value
          · simp only [if_pos hval, List.append_assoc]
            rfl
          · simp only [if_neg hval]
        · intro id'
          rw [h4 id']
          by_cases hid : id' ∈ rest.map RKey.videoId
          · simp [hid]
          · by_cases hid2 : id' = it.videoId
            · subst hid2
              simp [hid, mlookup_merase_self M _ hM]
            · simp [hid, hid2, mlookup_merase_ne M _ _ hid2]

theorem mupsert_append_of_not_mem (m : List (String × β)) (id : String) (v : β)
    (h : id ∉ m.map Prod.fst) : mupsert m id v = m ++ [(id, v)] := by
  induction m with
  | nil => rfl
  | cons p rest ih =>
      rcases p with ⟨a, b⟩
      simp only [List.map_cons, List.mem_cons] at h
      push_neg at h
      simp only [mupsert]
      rw [if_neg (fun he => h.1 he.symm), ih h.2, List.cons_append]

/-- With one row per video id, the `newDataMap` is just the id-keyed
list of (id, key) pairs in input order. -/
theorem snapMap_eq (newData : List Video) (hnd : (newData.map Video.videoId).Nodup) :
    snapMap newData = newData.map (fun v => (v.videoId, v.makekey)) := by
  suffices h : ∀ (l : List Video) (acc : NodeMap),
      ((l.map Video.videoId).Nodup) → (∀ v ∈ l, v.videoId ∉ acc.map Prod.fst) →
      l.foldl (fun m v => mupsert m v.videoId v.makekey) acc
        = acc ++ l.map (fun v => (v.videoId, v.makekey)) by
    have := h newData [] hnd (by simp)
    simpa [snapMap] using this
  intro l
  induction l with
  | nil => intro acc _ _; simp
  | cons v rest ih =>
      intro acc hnd2 hacc
      rw [List.foldl_cons, mupsert_append_of_not_mem _ _ _ (hacc v (List.mem_cons_self _ _))]
      rw [ih (acc ++ [(v.videoId, v.makekey)]) (List.nodup_cons.mp hnd2).2 ?_]
      · simp
      · intro w hw
        simp only [List.map_append, List.mem_append]
        push_neg
        refine ⟨hacc w (List.mem_cons_of_mem _ hw), ?_⟩
        simp only [List.map_cons, List.map_nil, List.mem_singleton]
        intro he
        exact (List.nodup_cons.mp hnd2).1 (he ▸ List.mem_map_of_mem Video.videoId hw)

/-- First components of the update queue form a sub-list of the visited
ids. -/
theorem filterMap_fst_sublist (l : List RKey) (f : RKey → Option (String × RKey))
    (h : ∀ it p, f it = some p → p.1 = it.videoId) :
    ((l.filterMap f).map Prod.fst).Sublist (l.map RKey.videoId) := by
  induction l with
  | nil => exact List.Sublist.refl _
  | cons it rest ih =>
      rcases hf : f it with _ | p
      · rw [List.filterMap_cons_none hf, List.map_cons]
        exact ih.trans (List.sublist_cons_self _ _)
      · rw [List.filterMap_cons_some hf, List.map_cons, List.map_cons, h it p hf]
        exact ih.cons₂ _

/-- The composed removal/update/insert phases of the tree refresh, given
the scan's characterisation of the three queues: afterwards the tree is
well-formed and holds exactly the values of the snapshot map. -/
theorem refreshPhases_WF_mem (t : RankTree) (snap : NodeMap) (toRemove : List String)
    (toUpdate : List (String × RKey)) (remaining : NodeMap) (hWF : TreeWF t)
    (hkeysnd : (snap.map Prod.fst).Nodup)
    (hsnap_vid : ∀ p ∈ snap, p.2.videoId = p.1)
    (hR : toRemove = ((inorderList t.root).filter
        (fun it => (mlookup snap it.videoId).isNone)).map RKey.videoId)
    (hU : toUpdate = (inorderList t.root).filterMap (fun it =>
        match mlookup snap it.videoId with
        | some nk => if it.value ≠ nk.value then some (it.videoId, nk) else none
        | none => none))
    (hRem_sub : remaining.Sublist snap)
    (hRem_lk : ∀ id', mlookup remaining id'
        = if id' ∈ (inorderList t.root).map RKey.videoId then none else mlookup snap id')
    (hcmp : ∀ a b : RKey,
        (a ∈ inorderList t.root ∨ ∃ p ∈ snap, a = p.2) →
        (b ∈ inorderList t.root ∨ ∃ p ∈ snap, b = p.2) →
        a.videoId ≠ b.videoId → keyLt a b = true ∨ keyLt b a = true)
    (hstab : ∀ x ∈ inorderList t.root, ∀ nk,
        mlookup snap x.videoId = some nk → nk.value = x.value → nk = x) :
    TreeWF (remaining.foldl (fun acc p => acc.insert p.2)
      (toUpdate.foldl (fun acc p => (acc.update p.1 p.2).1)
        (toRemove.foldl (fun acc id => (acc.removeById id).1) t))) ∧
    (∀ x, x ∈ inorderList (remaining.foldl (fun acc p => acc.insert p.2)
      (toUpdate.foldl (fun acc p => (acc.update p.1 p.2).1)
        (toRemove.foldl (fun acc id => (acc.removeById id).1) t))).root
      ↔ ∃ p ∈ snap, x = p.2) := by
  have hf : ∀ (it : RKey) (p : String × RKey), (match mlookup snap it.videoId with
      | some nk => if it.value ≠ nk.value then some (it.videoId, nk) else none
      | none => none) = some p →
      p.1 = it.videoId ∧ mlookup snap it.videoId = some p.2 ∧ it.value ≠ p.2.value := by
    intro it p h
    rcases hm : mlookup snap it.videoId with _ | nk
    · rw [hm] at h
      have h2 : (none : Option (String × RKey)) = some p := h
      exact Option.noConfusion h2
    · rw [hm] at h
      have h2 : (if it.value ≠ nk.value then some (it.videoId, nk) else none) = some p := h
      by_cases hv : it.value ≠ nk.value
      · rw [if_pos hv] at h2
        injection h2 with h3
        subst h3
        exact ⟨rfl, rfl, hv⟩
      · rw [if_neg hv] at h2
        exact Option.noConfusion h2
  have hUmem : ∀ p ∈ toUpdate, ∃ it ∈ inorderList t.root,
      p.1 = it.videoId ∧ mlookup snap it.videoId = some p.2 ∧ it.value ≠ p.2.value := by
    intro p hp
    rw [hU] at hp
    obtain ⟨it, hit, hfit⟩ := List.mem_filterMap.mp hp
    obtain ⟨h1, h2, h3⟩ := hf it p hfit
    exact ⟨it, hit, h1, h2, h3⟩
  have hUmem' : ∀ it ∈ inorderList t.root, ∀ nk, mlookup snap it.videoId = some nk →
      it.value ≠ nk.value → (it.videoId, nk) ∈ toUpdate := by
    intro it hit nk hm hv
    rw [hU]
    refine List.mem_filterMap.mpr ⟨it, hit, ?_⟩
    rw [hm]
    show (if it.value ≠ nk.value then some (it.videoId, nk) else none) = some (it.videoId, nk)
    rw [if_pos hv]
  have hRnd : toRemove.Nodup := by
    rw [hR]
    exact ((List.filter_sublist _).map RKey.videoId).nodup hWF.ids
  have hRpres : ∀ id ∈ toRemove, ∃ k ∈ inorderList t.root, k.videoId = id := by
    intro id hid
    rw [hR] at hid
    obtain ⟨it, hit, rfl⟩ := List.mem_map.mp hid
    exact ⟨it, List.mem_of_mem_filter hit, rfl⟩
  obtain ⟨hWF1, hmem1⟩ := fold_removeById_WF toRemove t hWF hRnd hRpres
  have hmem1' : ∀ x, x ∈ inorderList
      (toRemove.foldl (fun acc id => (acc.removeById id).1) t).root
      ↔ (x ∈ inorderList t.root ∧ mlookup snap x.videoId ≠ none) := by
    intro x
    rw [hmem1 x]
    constructor
    · rintro ⟨hx, hnin⟩
      refine ⟨hx, ?_⟩
      intro hlk
      apply hnin
      rw [hR]
      refine List.mem_map_of_mem _ (List.mem_filter.mpr ⟨hx, ?_⟩)
      simp [hlk]
    · rintro ⟨hx, hlk⟩
      refine ⟨hx, ?_⟩
      intro hin
      rw [hR] at hin
      obtain ⟨it, hit, hitid⟩ := List.mem_map.mp hin
      have hxit : it = x := List.inj_on_of_nodup_map hWF.ids
        (List.mem_of_mem_filter hit) hx hitid
      have hit2 := (List.mem_filter.mp hit).2
      rw [hxit] at hit2
      simp only [Option.isNone_iff_eq_none] at hit2
      exact hlk hit2
  have hUfst : (toUpdate.map Prod.fst).Sublist ((inorderList t.root).map RKey.videoId) := by
    rw [hU]
    exact filterMap_fst_sublist _ _ (fun it p h => (hf it p h).1)
  have hUnd : (toUpdate.map Prod.fst).Nodup := hUfst.nodup hWF.ids
  have hUvid : ∀ p ∈ toUpdate, p.2.videoId = p.1 := by
    intro p hp
    obtain ⟨it, hit, h1, h2, h3⟩ := hUmem p hp
    rw [h1]
    exact hsnap_vid (it.videoId, p.2) (mlookup_some_mem h2)
  have hUsnapval : ∀ p ∈ toUpdate, ∃ q ∈ snap, p.2 = q.2 := by
    intro p hp
    obtain ⟨it, hit, h1, h2, h3⟩ := hUmem p hp
    exact ⟨(it.videoId, p.2), mlookup_some_mem h2, rfl⟩
  have hUpres : ∀ p ∈ toUpdate, ∃ k ∈ inorderList
      (toRemove.foldl (fun acc id => (acc.removeById id).1) t).root, k.videoId = p.1 := by
    intro p hp
    obtain ⟨it, hit, h1, h2, h3⟩ := hUmem p hp
    refine ⟨it, (hmem1' it).mpr ⟨hit, ?_⟩, h1.symm⟩
    rw [h2]
    simp
  have hUne1 : ∀ p ∈ toUpdate, ∀ x ∈ inorderList
      (toRemove.foldl (fun acc id => (acc.removeById id).1) t).root,
      x.videoId ≠ p.1 → keyLt p.2 x = true ∨ keyLt x p.2 = true := by
    intro p hp x hx hne
    refine hcmp p.2 x (Or.inr (hUsnapval p hp)) (Or.inl ((hmem1' x).mp hx).1) ?_
    rw [hUvid p hp]
    exact fun he => hne he.symm
  have hUne2 : ∀ p ∈ toUpdate, ∀ q ∈ toUpdate, p.1 ≠ q.1 →
      keyLt p.2 q.2 = true ∨ keyLt q.2 p.2 = true := by
    intro p hp q hq hne
    refine hcmp p.2 q.2 (Or.inr (hUsnapval p hp)) (Or.inr (hUsnapval q hq)) ?_
    rw [hUvid p hp, hUvid q hq]
    exact hne
  obtain ⟨hWF2, hmem2⟩ := fold_update_WF toUpdate _ hWF1 hUnd hUvid hUpres hUne1 hUne2
  have hRemnd : (remaining.map Prod.fst).Nodup := (hRem_sub.map Prod.fst).nodup hkeysnd
  have hRemvid : ∀ p ∈ remaining, p.2.videoId = p.1 :=
    fun p hp => hsnap_vid p (hRem_sub.subset hp)
  have hRemlk : ∀ p ∈ remaining, p.1 ∉ (inorderList t.root).map RKey.videoId ∧
      mlookup snap p.1 = some p.2 := by
    intro p hp
    have hml : mlookup remaining p.1 = some p.2 := mem_mlookup hRemnd hp
    rw [hRem_lk p.1] at hml
    by_cases hin : p.1 ∈ (inorderList t.root).map RKey.videoId
    · rw [if_pos hin] at hml
      exact Option.noConfusion hml
    · rw [if_neg hin] at hml
      exact ⟨hin, hml⟩
  have hfreshRem : ∀ p ∈ remaining, ∀ y,
      y ∈ inorderList (toUpdate.foldl (fun acc p => (acc.update p.1 p.2).1)
        (toRemove.foldl (fun acc id => (acc.removeById id).1) t)).root →
      y.videoId ≠ p.1 := by
    intro p hp y hy hyid
    obtain ⟨hnin, _⟩ := hRemlk p hp
    rcases (hmem2 y).mp hy with ⟨q, hq, rfl⟩ | ⟨hy1, _⟩
    · apply hnin
      rw [← hyid, hUvid q hq]
      exact hUfst.subset (List.mem_map_of_mem Prod.fst hq)
    · apply hnin
      rw [← hyid]
      exact List.mem_map_of_mem RKey.videoId ((hmem1' y).mp hy1).1
  have hRemfresh : ∀ p ∈ remaining, p.1 ∉ (inorderList
      (toUpdate.foldl (fun acc p => (acc.update p.1 p.2).1)
        (toRemove.foldl (fun acc id => (acc.removeById id).1) t)).root).map
      RKey.videoId := by
    intro p hp hmem
    obtain ⟨y, hy, hyid⟩ := List.mem_map.mp hmem
    exact hfreshRem p hp y hy hyid
  have hRemne1 : ∀ p ∈ remaining, ∀ x ∈ inorderList
      (toUpdate.foldl (fun acc p => (acc.update p.1 p.2).1)
        (toRemove.foldl (fun acc id => (acc.removeById id).1) t)).root,
      keyLt p.2 x = true ∨ keyLt x p.2 = true := by
    intro p hp x hx
    have hxid : x.videoId ≠ p.1 := hfreshRem p hp x hx
    have hxdom : x ∈ inorderList t.root ∨ ∃ q ∈ snap, x = q.2 := by
      rcases (hmem2 x).mp hx with ⟨q, hq, rfl⟩ | ⟨hx1, _⟩
      · exact Or.inr (hUsnapval q hq)
      · exact Or.inl ((hmem1' x).mp hx1).1
    have hne : x.videoId ≠ p.2.videoId := by
      rw [hRemvid p hp]
      exact hxid
    exact Or.symm (hcmp x p.2 hxdom (Or.inr ⟨p, hRem_sub.subset hp, rfl⟩) hne)
  have hRemne2 : ∀ p ∈ remaining, ∀ q ∈ remaining, p.1 ≠ q.1 →
      keyLt p.2 q.2 = true ∨ keyLt q.2 p.2 = true := by
    intro p hp q hq hne
    refine hcmp p.2 q.2 (Or.inr ⟨p, hRem_sub.subset hp, rfl⟩)
      (Or.inr ⟨q, hRem_sub.subset hq, rfl⟩) ?_
    rw [hRemvid p hp, hRemvid q hq]
    exact hne
  obtain ⟨hWF3, hmem3⟩ := fold_insert_WF remaining _ hWF2 hRemnd hRemvid hRemfresh
    hRemne1 hRemne2
  refine ⟨hWF3, ?_⟩
  intro x
  rw [hmem3 x]
  constructor
  · rintro (⟨p, hp, rfl⟩ | hx2)
    · exact ⟨p, hRem_sub.subset hp, rfl⟩
    · rcases (hmem2 x).mp hx2 with ⟨q, hq, rfl⟩ | ⟨hx1, hxn⟩
      · exact hUsnapval q hq
      · obtain ⟨hxit, hxlk⟩ := (hmem1' x).mp hx1
        rcases hm : mlookup snap x.videoId with _ | nk
        · exact absurd hm hxlk
        · by_cases hv : x.value ≠ nk.value
          · exact absurd (List.mem_map_of_mem Prod.fst (hUmem' x hxit nk hm hv)) hxn
          · push_neg at hv
            have hxk : nk = x := hstab x hxit nk hm hv.symm
            exact ⟨(x.videoId, nk), mlookup_some_mem hm, hxk.symm⟩
  · rintro ⟨p, hp, rfl⟩
    by_cases hin : p.1 ∈ (inorderList t.root).map RKey.videoId
    · obtain ⟨it, hit, hitid⟩ := List.mem_map.mp hin
      have hml : mlookup snap it.videoId = some p.2 := by
        rw [hitid]
        exact mem_mlookup hkeysnd hp
      have hit1 : it ∈ inorderList
          (toRemove.foldl (fun acc id => (acc.removeById id).1) t).root :=
        (hmem1' it).mpr ⟨hit, by rw [hml]; simp⟩
      by_cases hv : it.value ≠ p.2.value
      · exact Or.inr ((hmem2 p.2).mpr (Or.inl ⟨(it.videoId, p.2),
          hUmem' it hit p.2 hml hv, rfl⟩))
      · push_neg at hv
        have hpx : p.2 = it := hstab it hit p.2 hml hv.symm
        refine Or.inr ((hmem2 p.2).mpr (Or.inr ⟨?_, ?_⟩))
        · rw [hpx]
          exact hit1
        · intro hmem
          obtain ⟨q, hq, hqid⟩ := List.mem_map.mp hmem
          obtain ⟨it', hit', h1, h2, h3⟩ := hUmem q hq
          have hii : it' = it := by
            refine List.inj_on_of_nodup_map hWF.ids hit' hit ?_
            rw [← h1, hqid, hpx]
          rw [hii] at h2 h3
          rw [hml] at h2
          injection h2 with h4
          rw [← h4] at h3
          exact h3 hv
    · have hml : mlookup remaining p.1 = some p.2 := by
        rw [hRem_lk p.1, if_neg hin]
        exact mem_mlookup hkeysnd hp
      exact Or.inl ⟨(p.1, p.2), mlookup_some_mem hml, rfl⟩

/-- `refresh_AVLTree` on a well-formed tree, with a non-empty id-unique
snapshot whose keys are (value, title)-injective against the old
contents and whose unchanged-score entries keep their keys: afterwards
the tree is well-formed and holds exactly the new snapshot's keys. -/
theorem refreshAVLTree_WF_mem (t : RankTree) (newData : List Video)
    (hWF : TreeWF t) (hne : newData ≠ [])
    (hnd : (newData.map Video.videoId).Nodup)
    (hinj : ∀ a ∈ inorderList t.root ++ newData.map Video.makekey,
            ∀ b ∈ inorderList t.root ++ newData.map Video.makekey,
            a.value = b.value → a.title = b.title → a.videoId = b.videoId)
    (hstable : ∀ x ∈ inorderList t.root, ∀ v ∈ newData,
            v.videoId = x.videoId → v.score = x.value → v.makekey = x) :
    TreeWF (refreshAVLTree t newData) ∧
    (∀ x, x ∈ inorderList (refreshAVLTree t newData).root
      ↔ x ∈ newData.map Video.makekey) := by
  have heq : snapMap newData = newData.map (fun v => (v.videoId, v.makekey)) :=
    snapMap_eq newData hnd
  have hkeys : (snapMap newData).map Prod.fst = newData.map Video.videoId := by
    rw [heq, List.map_map]
    rfl
  have hkeysnd : ((snapMap newData).map Prod.fst).Nodup := by
    rw [hkeys]
    exact hnd
  have hsnap_mem : ∀ p ∈ snapMap newData, ∃ v ∈ newData, p = (v.videoId, v.makekey) := by
    intro p hp
    rw [heq] at hp
    obtain ⟨v, hv, hpv⟩ := List.mem_map.mp hp
    exact ⟨v, hv, hpv.symm⟩
  have hsnap_vid : ∀ p ∈ snapMap newData, p.2.videoId = p.1 := by
    intro p hp
    obtain ⟨v, hv, hpe⟩ := hsnap_mem p hp
    rw [hpe]
    rfl
  have hsnap_mk : ∀ p ∈ snapMap newData, p.2 ∈ newData.map Video.makekey := by
    intro p hp
    obtain ⟨v, hv, hpe⟩ := hsnap_mem p hp
    rw [hpe]
    exact List.mem_map_of_mem Video.makekey hv
  have hvals : ∀ x : RKey, (∃ p ∈ snapMap newData, x = p.2)
      ↔ x ∈ newData.map Video.makekey := by
    intro x
    constructor
    · rintro ⟨p, hp, rfl⟩
      exact hsnap_mk p hp
    · intro hx
      obtain ⟨v, hv, rfl⟩ := List.mem_map.mp hx
      refine ⟨(v.videoId, v.makekey), ?_, rfl⟩
      rw [heq]
      exact List.mem_map_of_mem _ hv
  have hcmp : ∀ a b : RKey,
      (a ∈ inorderList t.root ∨ ∃ p ∈ snapMap newData, a = p.2) →
      (b ∈ inorderList t.root ∨ ∃ p ∈ snapMap newData, b = p.2) →
      a.videoId ≠ b.videoId → keyLt a b = true ∨ keyLt b a = true := by
    intro a b ha hb hab
    have ha2 : a ∈ inorderList t.root ++ newData.map Video.makekey := by
      rcases ha with h | h
      · exact List.mem_append_left _ h
      · exact List.mem_append_right _ ((hvals a).mp h)
    have hb2 : b ∈ inorderList t.root ++ newData.map Video.makekey := by
      rcases hb with h | h
      · exact List.mem_append_left _ h
      · exact List.mem_append_right _ ((hvals b).mp h)
    by_cases h1 : keyLt a b = true
    · exact Or.inl h1
    by_cases h2 : keyLt b a = true
    · exact Or.inr h2
    exfalso
    rw [Bool.not_eq_true] at h1 h2
    obtain ⟨hv, ht⟩ := keyLt_not_both_iff.mp ⟨h1, h2⟩
    exact hab (hinj a ha2 b hb2 hv ht)
  have hstab : ∀ x ∈ inorderList t.root, ∀ nk,
      mlookup (snapMap newData) x.videoId = some nk → nk.value = x.value → nk = x := by
    intro x hx nk hm hv
    obtain ⟨v, hv2, hpe⟩ := hsnap_mem (x.videoId, nk) (mlookup_some_mem hm)
    have h1 : v.videoId = x.videoId := (congrArg Prod.fst hpe).symm
    have h2 : nk = v.makekey := congrArg Prod.snd hpe
    have h3 : v.score = x.value := by
      rw [← hv, h2]
      rfl
    rw [h2]
    exact hstable x hx v hv2 h1 h3
  have hrw : refreshAVLTree t newData =
      (if t.size_ = 0 then (snapMap newData).foldl (fun acc p => acc.insert p.2) t
       else
         (((inorderList t.root).foldl scanStep ([], [], snapMap newData)).2.2).foldl
           (fun acc p => acc.insert p.2)
           ((((inorderList t.root).foldl scanStep ([], [], snapMap newData)).2.1).foldl
             (fun acc p => (acc.update p.1 p.2).1)
             ((((inorderList t.root).foldl scanStep ([], [], snapMap newData)).1).foldl
               (fun acc id => (acc.removeById id).1) t))) := by
    rw [refreshAVLTree, if_neg hne]
    rfl
  rw [hrw]
  by_cases hsz : t.size_ = 0
  · rw [if_pos hsz]
    have hio : inorderList t.root = [] := by
      have hs := hWF.size
      rw [hsz] at hs
      exact List.length_eq_zero.mp hs.symm
    obtain ⟨hWFf, hmemf⟩ := fold_insert_WF (snapMap newData) t hWF hkeysnd hsnap_vid
      (fun p hp => by rw [hio]; simp)
      (fun p hp x hx => by rw [hio] at hx; exact absurd hx (List.not_mem_nil x))
      (fun p hp q hq hpq => by
        refine hcmp p.2 q.2 (Or.inr ⟨p, hp, rfl⟩) (Or.inr ⟨q, hq, rfl⟩) ?_
        rw [hsnap_vid p hp, hsnap_vid q hq]
        exact hpq)
    refine ⟨hWFf, ?_⟩
    intro x
    rw [hmemf x, hio, ← hvals x]
    simp
  · rw [if_neg hsz]
    obtain ⟨hR0, hU0, hRsub0, hRlk0⟩ :=
      scanFold_spec (inorderList t.root) [] [] (snapMap newData) hWF.ids hkeysnd
    rw [List.nil_append] at hR0 hU0
    obtain ⟨hWFf, hmemf⟩ := refreshPhases_WF_mem t (snapMap newData)
      ((inorderList t.root).foldl scanStep ([], [], snapMap newData)).1
      ((inorderList t.root).foldl scanStep ([], [], snapMap newData)).2.1
      ((inorderList t.root).foldl scanStep ([], [], snapMap newData)).2.2
      hWF hkeysnd hsnap_vid hR0 hU0 hRsub0 hRlk0 hcmp hstab
    refine ⟨hWFf, ?_⟩
    intro x
    rw [hmemf x]
    exact hvals x

/-- `build_AVLTree`'s fresh tree from an id-unique, injective key list:
well-formed and holding exactly those keys. -/
theorem buildFreshTree_WF_mem (newData : List Video)
    (hnd : (newData.map Video.videoId).Nodup)
    (hinj : ∀ a ∈ newData.map Video.makekey, ∀ b ∈ newData.map Video.makekey,
            a.value = b.value → a.title = b.title → a.videoId = b.videoId) :
    TreeWF (buildFreshTree (newData.map Video.makekey)) ∧
    (∀ x, x ∈ inorderList (buildFreshTree (newData.map Video.makekey)).root
      ↔ x ∈ newData.map Video.makekey) := by
  have hbr : buildFreshTree (newData.map Video.makekey)
      = (newData.map (fun v => (v.videoId, v.makekey))).foldl
        (fun acc p => acc.insert p.2) RankTree.empty := by
    rw [buildFreshTree, List.foldl_map, List.foldl_map]
  have hkeys : (newData.map (fun v => (v.videoId, v.makekey))).map Prod.fst
      = newData.map Video.videoId := by
    rw [List.map_map]
    rfl
  have hmemps : ∀ p ∈ newData.map (fun v => (v.videoId, v.makekey)),
      ∃ v ∈ newData, p = (v.videoId, v.makekey) := by
    intro p hp
    obtain ⟨v, hv, hpv⟩ := List.mem_map.mp hp
    exact ⟨v, hv, hpv.symm⟩
  have hvid : ∀ p ∈ newData.map (fun v => (v.videoId, v.makekey)), p.2.videoId = p.1 := by
    intro p hp
    obtain ⟨v, hv, hpe⟩ := hmemps p hp
    rw [hpe]
    rfl
  obtain ⟨hWFf, hmemf⟩ := fold_insert_WF (newData.map (fun v => (v.videoId, v.makekey)))
    RankTree.empty treeWF_empty (by rw [hkeys]; exact hnd) hvid
    (fun p hp => by simp [RankTree.empty, inorderList])
    (fun p hp x hx => by simp [RankTree.empty, inorderList] at hx)
    (fun p hp q hq hpq => by
      obtain ⟨v, hv, hpe⟩ := hmemps p hp
      obtain ⟨w, hw, hqe⟩ := hmemps q hq
      by_cases h1 : keyLt p.2 q.2 = true
      · exact Or.inl h1
      by_cases h2 : keyLt q.2 p.2 = true
      · exact Or.inr h2
      exfalso
      rw [Bool.not_eq_true] at h1 h2
      obtain ⟨hv2, ht2⟩ := keyLt_not_both_iff.mp ⟨h1, h2⟩
      apply hpq
      rw [← hvid p hp, ← hvid q hq]
      refine hinj p.2 ?_ q.2 ?_ hv2 ht2
      · rw [hpe]
        exact List.mem_map_of_mem Video.makekey hv
      · rw [hqe]
        exact List.mem_map_of_mem Video.makekey hw)
  rw [hbr]
  refine ⟨hWFf, ?_⟩
  intro x
  rw [hmemf x]
  simp only [RankTree.empty, inorderList, List.not_mem_nil, or_false]
  constructor
  · rintro ⟨p, hp, rfl⟩
    obtain ⟨v, hv, hpe⟩ := hmemps p hp
    rw [hpe]
    exact List.mem_map_of_mem Video.makekey hv
  · intro hx
    obtain ⟨v, hv, rfl⟩ := List.mem_map.mp hx
    exact ⟨(v.videoId, v.makekey), List.mem_map_of_mem _ hv, rfl⟩

/-! ### Concrete instances for the refresh claims -/

def cexTreeA : RankTree := buildFreshTree [⟨50, "A", "A"⟩]

def cexTreeYX : RankTree := buildFreshTree [⟨50, "Y", "T"⟩, ⟨50, "X", "T"⟩]

def cexVideoA2 : Video := ⟨"A", "A2", 50, 0, 0, 0⟩

def cexVideoY : Video := ⟨"Y", "T", 50, 0, 0, 0⟩

def cexVideoB : Video := ⟨"B", "B", 40, 0, 0, 0⟩

theorem cexTreeA_WF : TreeWF cexTreeA :=
  (buildFreshTree_WF_mem [⟨"A", "A", 50, 0, 0, 0⟩] (by decide) (by decide)).1

/-- C3, counterexample to the claim as stated: (a) refreshing with an
empty snapshot returns early and keeps the old contents instead of
emptying the tree; (b) when two old keys share (value, title), the
removal phase deletes the wrong node — after removing id Y the tree
holds id X's key even though only Y is in the new snapshot; (c) an id
whose score is unchanged but whose title changed keeps its old key, so
the tree does not hold the id's new key. -/
theorem refreshAVLTree_not_always_fresh_build :
    (inorderList (refreshAVLTree cexTreeA []).root = [⟨50, "A", "A"⟩] ∧
      inorderList (buildFreshTree (([] : List Video).map Video.makekey)).root = []) ∧
    ((inorderList (refreshAVLTree cexTreeYX [cexVideoY]).root).map RKey.videoId = ["X"] ∧
      [cexVideoY].map Video.videoId = ["Y"]) ∧
    (inorderList (refreshAVLTree cexTreeA [cexVideoA2]).root = [⟨50, "A", "A"⟩] ∧
      [cexVideoA2].map Video.makekey = [⟨50, "A", "A2"⟩]) := by
  decide

/-- C3 (amended): the claim as stated fails on an empty snapshot, on
duplicate (value, title) pairs and on title-only changes (see the
counterexample); amended with those side conditions it holds: for a
well-formed tree and a non-empty snapshot with pairwise-distinct ids,
whose keys are (value, title)-injective across the old and new contents
and which keeps the key of every id whose score is unchanged, the
refreshed tree holds exactly the new snapshot's keys — the same
contents, up to order, as a fresh tree built from that snapshot. -/
theorem refreshAVLTree_matches_fresh_build (t : RankTree) (newData : List Video)
    (hWF : TreeWF t) (hne : newData ≠ [])
    (hnd : (newData.map Video.videoId).Nodup)
    (hinj : ∀ a ∈ inorderList t.root ++ newData.map Video.makekey,
            ∀ b ∈ inorderList t.root ++ newData.map Video.makekey,
            a.value = b.value → a.title = b.title → a.videoId = b.videoId)
    (hstable : ∀ x ∈ inorderList t.root, ∀ v ∈ newData,
            v.videoId = x.videoId → v.score = x.value → v.makekey = x) :
    List.Perm (inorderList (refreshAVLTree t newData).root)
      (newData.map Video.makekey) ∧
    List.Perm (inorderList (refreshAVLTree t newData).root)
      (inorderList (buildFreshTree (newData.map Video.makekey)).root) := by
  obtain ⟨hWFf, hmemf⟩ := refreshAVLTree_WF_mem t newData hWF hne hnd hinj hstable
  have hinj2 : ∀ a ∈ newData.map Video.makekey, ∀ b ∈ newData.map Video.makekey,
      a.value = b.value → a.title = b.title → a.videoId = b.videoId :=
    fun a ha b hb => hinj a (List.mem_append_right _ ha) b (List.mem_append_right _ hb)
  obtain ⟨hWFb, hmemb⟩ := buildFreshTree_WF_mem newData hnd hinj2
  have hmkid : (newData.map Video.makekey).map RKey.videoId
      = newData.map Video.videoId := by
    rw [List.map_map]
    rfl
  have hmknd : (newData.map Video.makekey).Nodup := by
    refine List.Nodup.of_map RKey.videoId ?_
    rw [hmkid]
    exact hnd
  have hperm1 : List.Perm (inorderList (refreshAVLTree t newData).root)
      (newData.map Video.makekey) :=
    (List.perm_ext_iff_of_nodup (contents_nodup hWFf) hmknd).mpr hmemf
  have hperm2 : List.Perm (inorderList (buildFreshTree (newData.map Video.makekey)).root)
      (newData.map Video.makekey) :=
    (List.perm_ext_iff_of_nodup (contents_nodup hWFb) hmknd).mpr hmemb
  exact ⟨hperm1, hperm1.trans hperm2.symm⟩

/-! ### Order statistics: `kthElement` and `getRank` -/

/-- Scenario 2's videos {A = 50, B = 40, C = 30}. -/
def scenVideos : List Video :=
  [⟨"A", "A", 50, 0, 0, 0⟩, ⟨"B", "B", 40, 0, 0, 0⟩, ⟨"C", "C", 30, 0, 0, 0⟩]

def scenTree : RankTree := buildFreshTree (scenVideos.map Video.makekey)

theorem scenTree_WF : TreeWF scenTree :=
  (buildFreshTree_WF_mem scenVideos (by decide) (by decide)).1

/-- `kthElementHelper`'s subtree-size-guided descent returns the
(k-1)-indexed element of the in-order traversal (k is 1-based). -/
theorem kthElementHelper_spec : ∀ t : RTree, SzOk t → ∀ k : Nat, 1 ≤ k →
    k ≤ (inorderList t).length →
    kthElementHelper t k = (inorderList t).get? (k - 1) := by
  intro t
  induction t with
  | leaf =>
      intro _ k hk1 hk2
      simp only [inorderList, List.length_nil] at hk2
      omega
  | node l d h s r ihl ihr =>
      intro hsz k hk1 hk2
      cases hsz with
      | node hl hr hs =>
        have hlen : (ssz l).toNat = (inorderList l).length := by
          rw [szOk_ssz hl]
          exact Int.toNat_natCast _
        simp only [inorderList, List.length_append, List.length_cons] at hk2
        simp only [kthElementHelper, inorderList]
        by_cases hc1 : k ≤ (ssz l).toNat
        · rw [if_pos hc1, ihl hl k hk1 (by omega),
            List.get?_append (by omega)]
        · by_cases hc2 : k = (ssz l).toNat + 1
          · rw [if_neg hc1, if_pos hc2,
              List.get?_append_right (by omega)]
            have hz : k - 1 - (inorderList l).length = 0 := by omega
            rw [hz, List.get?_cons_zero]
          · rw [if_neg hc1, if_neg hc2,
              ihr hr (k - (ssz l).toNat - 1) (by omega) (by omega),
              List.get?_append_right (by omega)]
            obtain ⟨m, hm⟩ : ∃ m, k - 1 - (inorderList l).length = m + 1 :=
              ⟨k - 2 - (inorderList l).length, by omega⟩
            rw [hm, List.get?_cons_succ]
            congr 1
            omega

/-- `getRankHelper` maps the element at 1-based in-order position k to
`accum + k`, on a size-correct strict search tree. -/
theorem getRankHelper_spec : ∀ t : RTree, SzOk t → IsBST t →
    ∀ (k : Nat) (v : RKey) (accum : Nat), 1 ≤ k →
    (inorderList t).get? (k - 1) = some v →
    getRankHelper t v accum = accum + k := by
  intro t
  induction t with
  | leaf =>
      intro _ _ k v accum _ hv
      simp only [inorderList, List.get?_nil] at hv
      exact Option.noConfusion hv
  | node l d h s r ihl ihr =>
      intro hsz hbst k v accum hk1 hv
      obtain ⟨hbl, hbr, hLd, hdR⟩ := isBST_inv hbst
      cases hsz with
      | node hl hr hs =>
        have hlen : (ssz l).toNat = (inorderList l).length := by
          rw [szOk_ssz hl]
          exact Int.toNat_natCast _
        simp only [inorderList] at hv
        simp only [getRankHelper]
        by_cases hc1 : k - 1 < (inorderList l).length
        · rw [List.get?_append hc1] at hv
          have hvmem : v ∈ inorderList l := List.get?_mem hv
          rw [if_pos (hLd v hvmem)]
          exact ihl hl hbl k v accum hk1 hv
        · by_cases hc2 : k - 1 = (inorderList l).length
          · rw [List.get?_append_right (by omega)] at hv
            have hz : k - 1 - (inorderList l).length = 0 := by omega
            rw [hz, List.get?_cons_zero] at hv
            have hdv : d = v := Option.some.inj hv
            rw [if_neg (by rw [← hdv, keyLt_irrefl]; simp),
              if_neg (by rw [hdv, keyLt_irrefl]; simp)]
            omega
          · rw [List.get?_append_right (by omega)] at hv
            obtain ⟨m, hm⟩ : ∃ m, k - 1 - (inorderList l).length = m + 1 :=
              ⟨k - 2 - (inorderList l).length, by omega⟩
            rw [hm, List.get?_cons_succ] at hv
            have hvmem : v ∈ inorderList r := List.get?_mem hv
            have hdvlt : keyLt d v = true := hdR v hvmem
            rw [if_neg (by rw [keyLt_asymm hdvlt]; simp), if_pos hdvlt,
              ihr hr hbr (m + 1) v (accum + (ssz l).toNat + 1) (by omega) hv]
            omega

/-- C4: on a well-formed order-statistics tree, `kthElement` (1-based)
returns exactly the (k-1)-indexed entry of the full in-order traversal
for k in [1, size], `getRank` of that entry returns k, and k = 0 or
k > size yields no value; in particular, in the tree built from
{A = 50, B = 40, C = 30}, B has rank 2 and the 3rd element is C. -/
theorem kthElement_getRank_spec (t : RankTree) (hWF : TreeWF t) :
    (∀ k : Nat, 1 ≤ k → k ≤ t.size_ →
      t.kthElement k = (inorderList t.root).get? (k - 1)) ∧
    (∀ (k : Nat) (v : RKey), 1 ≤ k → k ≤ t.size_ →
      (inorderList t.root).get? (k - 1) = some v → t.getRank v = k) ∧
    t.kthElement 0 = none ∧
    (∀ k : Nat, k > t.size_ → t.kthElement k = none) ∧
    scenTree.getRank ⟨40, "B", "B"⟩ = 2 ∧
    scenTree.kthElement 3 = some ⟨30, "C", "C"⟩ := by
  refine ⟨?_, ?_, ?_, ?_, by decide, by decide⟩
  · intro k hk1 hk2
    rw [RankTree.kthElement, if_neg (by omega)]
    exact kthElementHelper_spec t.root hWF.szok k hk1 (by rw [← hWF.size]; exact hk2)
  · intro k v hk1 hk2 hv
    rw [RankTree.getRank, getRankHelper_spec t.root hWF.szok hWF.bst k v 0 hk1 hv]
    omega
  · rw [RankTree.kthElement]
    simp
  · intro k hk
    rw [RankTree.kthElement, if_pos (Or.inr hk)]

/-- The C4 theorem at a concrete input: the scenario tree, k = 2. -/
theorem kthElement_getRank_spec_witness :
    scenTree.kthElement 2 = (inorderList scenTree.root).get? 1 :=
  (kthElement_getRank_spec scenTree scenTree_WF).1 2 (by decide) (by decide)

/-! ## The ranking engine (RankEngine.h / RankEngine.cpp) -/

/-- `enum class AlgorithmType` (RankEngine.h). -/
inductive AlgorithmType where
  | BasicSort | SelectThenSort | AVLTreeRank | OnlineInsert | MultiMetric
deriving Repr, DecidableEq

/-- `struct RankPolicy` (RankEngine.h): strategy, sort and select
sub-algorithms, K, multi-metric configuration. -/
structure RankPolicy where
  a : AlgorithmType
  s : SortType
  sel : SelectType
  k : Int
  metricConfig : MultiMetricConfig
deriving Repr, DecidableEq

/-- The `RankEngine` state the claims concern: the ranked view `cur`,
the multi-metric view `curMulti`, the PositionIndex `pos`, the free-slot
list `emptySlots` and the AVL tree. -/
structure Engine where
  cur : Array RKey
  curMulti : Array MMKey
  pos : List (String × Int)
  emptySlots : List Int
  avlTree : RankTree
deriving Repr, DecidableEq

/-- `RankEngine::setData`: replace the key list with the sources'
keys. -/
def setDataKeys (src : List Video) : Array RKey := (src.map Video.makekey).toArray

/-- The loop of `rebuildPosMap` and the final loop of
`RankEngine::build`: `pos[cur[i].videoId] = i` for i = 0..size-1. -/
def posAssignAll (pos0 : List (String × Int)) (cur : Array RKey) : List (String × Int) :=
  (List.range cur.size).foldl (fun m i => mupsert m (agetI cur (i : Int)).videoId (i : Int)) pos0

/-- `RankEngine::rebuildPosMap`: clear, then assign every position. -/
def rebuildPosMap (cur : Array RKey) : List (String × Int) := posAssignAll [] cur

/-- `RankEngine::build_sortAll`: sort everything, keep the first K when
more are present. -/
def build_sortAll (P : RankPolicy) (e : Engine) : Engine :=
  let cur1 := applySortAlgorithm e.cur P.s
  if (cur1.size : Int) > P.k then { e with cur := cur1.extract 0 P.k.toNat }
  else { e with cur := cur1 }

/-- `RankEngine::build_selectThenSort`: early return on empty data or
K ≤ 0; otherwise select the top min(K, n) and re-sort them. -/
def build_selectThenSort (P : RankPolicy) (e : Engine) : Engine :=
  if e.cur.size = 0 ∨ P.k ≤ 0 then e
  else
    let k := min P.k (e.cur.size : Int)
    let topK := selectTopK e.cur k (toSelectAlgorithm P.sel)
    { e with cur := applySortAlgorithm topK P.s }

/-- `RankEngine::build_onlineInsert`: the select-then-sort build plus
the position map. -/
def build_onlineInsert (P : RankPolicy) (e : Engine) : Engine :=
  if e.cur.size = 0 ∨ P.k ≤ 0 then e
  else
    let k := min P.k (e.cur.size : Int)
    let cur1 := applySortAlgorithm (selectTopK e.cur k (toSelectAlgorithm P.sel)) P.s
    { e with cur := cur1, pos := rebuildPosMap cur1 }

/-- `RankEngine::build_AVLTree`: early return on empty data or K ≤ 0;
otherwise insert everything into a fresh tree and extract the top
min(K, size).  (`rebuildPosMap` is run for compatibility.) -/
def build_AVLTree (P : RankPolicy) (e : Engine) : Engine :=
  if e.cur.size = 0 ∨ P.k ≤ 0 then e
  else
    let t := e.cur.foldl RankTree.insert RankTree.empty
    let k := min P.k (t.size_ : Int)
    let cur1 := (t.topK k.toNat).toArray
    { e with cur := cur1, avlTree := t, pos := rebuildPosMap cur1 }

/-- `MultiMetricSort::selectTopK` (MultiMetric.h): empty or K ≤ 0 gives
an empty result; otherwise the first min(k, n) in sorted order
(`nth_element` to the k-th position, copy, `sort` — modelled by its
contract: the sorted prefix). -/
def mmSelectTopK (data : Array MMKey) (k : Int) : Array MMKey :=
  if data.size = 0 ∨ k ≤ 0 then #[]
  else ((isortBy mmLt data.toList).take (min k (data.size : Int)).toNat).toArray

/-- The `cur` synchronisation of `build_MultiMetric`: first metric (or
0) as score, same id and title. -/
def mmToKey (mmk : MMKey) : RKey :=
  ⟨match mmk.metrics with | [] => 0 | x :: _ => x, mmk.videoId, mmk.title⟩

/-- `RankEngine::build_MultiMetric`. -/
def build_MultiMetric (P : RankPolicy) (e : Engine) : Engine :=
  if e.curMulti.size = 0 then e
  else
    let k := min P.k (e.curMulti.size : Int)
    let cm := mmSelectTopK e.curMulti k
    { e with curMulti := cm, cur := cm.map mmToKey }

/-- `RankEngine::build` from a full collection: `setData`, the
strategy dispatch, then the final position-assignment loop.  `curMulti`
holds one multi-metric key per item (as `refresh_MultiMetric`
prepares it; the deltas and optional metrics default to 0). -/
def buildEngine (items : List Video) (P : RankPolicy) : Engine :=
  let e0 : Engine :=
    { cur := setDataKeys items,
      curMulti := (items.map (fun v => createMultiMetricKey v.videoId v.title
        v.viewCount v.likeCount v.commentCount P.metricConfig 0 0 0 0 0)).toArray,
      pos := [], emptySlots := [], avlTree := RankTree.empty }
  let e1 :=
    match P.a with
    | .BasicSort => build_sortAll P e0
    | .SelectThenSort => build_selectThenSort P e0
    | .AVLTreeRank => build_AVLTree P e0
    | .OnlineInsert => build_onlineInsert P e0
    | .MultiMetric => build_MultiMetric P e0
  { e1 with pos := posAssignAll e1.pos e1.cur }

theorem size_setDataKeys (src : List Video) : (setDataKeys src).size = src.length := by
  simp [setDataKeys]

theorem size_foldl_rankInsert (l : List RKey) :
    ∀ t0 : RankTree, (l.foldl RankTree.insert t0).size_ = t0.size_ + l.length := by
  induction l with
  | nil => intro t0; simp
  | cons v rest ih =>
      intro t0
      rw [List.foldl_cons, ih]
      show (t0.insert v).size_ + rest.length = t0.size_ + (rest.length + 1)
      simp only [RankTree.insert]
      omega

theorem length_inorder_foldl_rankInsert (l : List RKey) :
    ∀ t0 : RankTree, (inorderList (l.foldl RankTree.insert t0).root).length
      = (inorderList t0.root).length + l.length := by
  induction l with
  | nil => intro t0; simp
  | cons v rest ih =>
      intro t0
      rw [List.foldl_cons, ih]
      have hp := (perm_insertNode t0.root v).length_eq
      show (inorderList (insertNode t0.root v)).length + rest.length
        = (inorderList t0.root).length + (rest.length + 1)
      rw [hp]
      simp only [List.length_cons]
      omega

theorem length_inorderTopK (k : Nat) :
    ∀ (t : RTree) (acc : List RKey), acc.length ≤ k →
      (inorderTopK k t acc).length = min k (acc.length + (inorderList t).length) := by
  intro t
  induction t with
  | leaf =>
      intro acc hacc
      simp only [inorderTopK, inorderList, List.length_nil]
      omega
  | node l d h s r ihl ihr =>
      intro acc hacc
      simp only [inorderTopK, inorderList, List.length_append, List.length_cons]
      by_cases hc0 : acc.length ≥ k
      · rw [if_pos hc0]
        omega
      · rw [if_neg hc0]
        have h1 := ihl acc hacc
        by_cases hc1 : (inorderTopK k l acc).length < k
        · rw [if_pos hc1]
          have h2 : ((inorderTopK k l acc) ++ [d]).length
              = (inorderTopK k l acc).length + 1 := by simp
          by_cases hc2 : ((inorderTopK k l acc) ++ [d]).length < k
          · rw [if_pos hc2]
            rw [ihr _ (by omega)]
            omega
          · rw [if_neg hc2]
            omega
        · rw [if_neg hc1]
          by_cases hc2 : (inorderTopK k l acc).length < k
          · exact absurd hc2 hc1
          · rw [if_neg hc2]
            omega

/-- C2 (amended): as stated — "including K ≤ 0" — the claim is refuted
by `build_view_size_counterexample` (the select-then-sort, tree and
online-insert builds return early on K ≤ 0 and keep all n entries);
amended to policies with K ≥ 1 it holds for every strategy: after build
the ranked view has exactly min(K, n) entries. -/
theorem build_view_size (items : List Video) (P : RankPolicy) (hk : 1 ≤ P.k) :
    (buildEngine items P).cur.size = min P.k.toNat items.length := by
  rcases P with ⟨a, s, sel, k, mc⟩
  simp only at hk
  cases a <;>
    simp only [buildEngine, build_sortAll, build_selectThenSort, build_onlineInsert,
      build_AVLTree, build_MultiMetric]
  case BasicSort =>
    by_cases hc : ((applySortAlgorithm (setDataKeys items) s).size : Int) > k
    · rw [if_pos hc]
      simp only [Array.size_extract, size_applySortAlgorithm, size_setDataKeys] at hc ⊢
      omega
    · rw [if_neg hc]
      simp only [size_applySortAlgorithm, size_setDataKeys] at hc ⊢
      omega
  case SelectThenSort =>
    by_cases hc : (setDataKeys items).size = 0 ∨ k ≤ 0
    · rw [if_pos hc]
      simp only [size_setDataKeys] at hc ⊢
      omega
    · rw [if_neg hc]
      push_neg at hc
      simp only [size_setDataKeys] at hc
      have h1 : 1 ≤ min k ((setDataKeys items).size : Int) := by
        simp only [size_setDataKeys]
        omega
      rw [size_applySortAlgorithm, size_selectTopK _ _ _ h1]
      simp only [size_setDataKeys]
      omega
  case AVLTreeRank =>
    by_cases hc : (setDataKeys items).size = 0 ∨ k ≤ 0
    · rw [if_pos hc]
      simp only [size_setDataKeys] at hc ⊢
      omega
    · rw [if_neg hc]
      push_neg at hc
      simp only [size_setDataKeys] at hc
      have hfold : (setDataKeys items).foldl RankTree.insert RankTree.empty
          = (setDataKeys items).toList.foldl RankTree.insert RankTree.empty :=
        Array.foldl_eq_foldl_data _ _ _
      simp only [RankTree.topK, Array.size_toArray, hfold]
      rw [length_inorderTopK _ _ _ (by simp)]
      rw [size_foldl_rankInsert, length_inorder_foldl_rankInsert]
      simp only [RankTree.empty, inorderList, List.length_nil, Array.length_toList,
        size_setDataKeys]
      omega
  case OnlineInsert =>
    by_cases hc : (setDataKeys items).size = 0 ∨ k ≤ 0
    · rw [if_pos hc]
      simp only [size_setDataKeys] at hc ⊢
      omega
    · rw [if_neg hc]
      push_neg at hc
      simp only [size_setDataKeys] at hc
      have h1 : 1 ≤ min k ((setDataKeys items).size : Int) := by
        simp only [size_setDataKeys]
        omega
      rw [size_applySortAlgorithm, size_selectTopK _ _ _ h1]
      simp only [size_setDataKeys]
      omega
  case MultiMetric =>
    by_cases hc : (items.map (fun v => createMultiMetricKey v.videoId v.title
        v.viewCount v.likeCount v.commentCount mc 0 0 0 0 0)).toArray.size = 0
    · rw [if_pos hc]
      simp only [Array.size_toArray, List.length_map] at hc
      simp only [size_setDataKeys]
      omega
    · rw [if_neg hc]
      simp only [mmSelectTopK, Array.size_map]
      rw [if_neg (by
        push_neg
        refine ⟨hc, ?_⟩
        simp only [Array.size_toArray, List.length_map] at hc ⊢
        omega)]
      simp only [Array.size_toArray, List.length_map] at hc
      simp only [Array.size_toArray, List.length_take, length_isortBy,
        Array.length_toList, List.length_map]
      omega

/-- Concrete policy with K = 0 for the C2 counterexample. -/
def cexPolicyK0 : RankPolicy :=
  ⟨.AVLTreeRank, .sort_selection, .select_sequential, 0, ⟨[], true⟩⟩

/-- C2, counterexample to "including K ≤ 0": the tree build returns
early on K = 0 and the view keeps all 1 ≠ min(0, 1) = 0 entries. -/
theorem build_view_size_counterexample :
    (buildEngine [⟨"A", "A", 50, 0, 0, 0⟩] cexPolicyK0).cur.size = 1 ∧
    min ((0 : Int)).toNat 1 = 0 := by
  decide

/-- The amended C2 theorem at a concrete input: one item, K = 2,
tree strategy. -/
theorem build_view_size_witness :
    (buildEngine [⟨"A", "A", 50, 0, 0, 0⟩]
      ⟨.AVLTreeRank, .sort_selection, .select_sequential, 2, ⟨[], true⟩⟩).cur.size
      = min ((2 : Int)).toNat 1 :=
  build_view_size [⟨"A", "A", 50, 0, 0, 0⟩]
    ⟨.AVLTreeRank, .sort_selection, .select_sequential, 2, ⟨[], true⟩⟩ (by decide)

/-- The amended C3 theorem at a concrete input: the one-node tree
{A = 50} refreshed with the one-item snapshot {B = 40}. -/
theorem refreshAVLTree_matches_fresh_build_witness :
    List.Perm (inorderList (refreshAVLTree cexTreeA [cexVideoB]).root)
      ([cexVideoB].map Video.makekey) :=
  (refreshAVLTree_matches_fresh_build cexTreeA [cexVideoB] cexTreeA_WF
    (by decide) (by decide) (by decide) (by decide)).1

/-! ## The online-insert strategy (SortingAlgorithm.cpp) -/

/-- One `while` iteration bound of `RankEngine::shiftUp`, fuelled: the
index strictly decreases and the loop stops at 0, so `idx.toNat + 1`
units of fuel always run the loop to completion. -/
def shiftUpF : Nat → Array RKey × List (String × Int) → Int →
    Array RKey × List (String × Int)
  | 0, st, _ => st
  | fuel + 1, st, idx =>
    if 0 < idx ∧ keyLt (agetI st.1 idx) (agetI st.1 (idx - 1)) = true then
      let cur1 := aswapI st.1 idx (idx - 1)
      let pos1 := mupsert (mupsert st.2 (agetI cur1 idx).videoId idx)
        (agetI cur1 (idx - 1)).videoId (idx - 1)
      shiftUpF fuel (cur1, pos1) (idx - 1)
    else st

/-- `RankEngine::shiftUp`: bubble the entry at `idx` toward the front
while it ranks ahead of its predecessor, updating the position map. -/
def shiftUpW (st : Array RKey × List (String × Int)) (idx : Int) :
    Array RKey × List (String × Int) :=
  shiftUpF (idx.toNat + 1) st idx

/-- One `while` iteration bound of `RankEngine::shiftDown`, fuelled: the
index strictly increases toward `size - 1` and a swap preserves the
size, so `(size - idx).toNat + 1` units always complete the loop. -/
def shiftDownF : Nat → Array RKey × List (String × Int) → Int →
    Array RKey × List (String × Int)
  | 0, st, _ => st
  | fuel + 1, st, idx =>
    if idx < (st.1.size : Int) - 1 ∧ keyLt (agetI st.1 (idx + 1)) (agetI st.1 idx) = true then
      let cur1 := aswapI st.1 idx (idx + 1)
      let pos1 := mupsert (mupsert st.2 (agetI cur1 idx).videoId idx)
        (agetI cur1 (idx + 1)).videoId (idx + 1)
      shiftDownF fuel (cur1, pos1) (idx + 1)
    else st

/-- `RankEngine::shiftDown`: bubble the entry at `idx` toward the back
while its successor ranks ahead of it, updating the position map. -/
def shiftDownW (st : Array RKey × List (String × Int)) (idx : Int) :
    Array RKey × List (String × Int) :=
  shiftDownF (((st.1.size : Int) - idx).toNat + 1) st idx

/-- `RankEngine::adjust` and `RankEngine::adjustNeighbor` (identical
bodies): move the entry at `idx` by neighbour comparison. -/
def adjustW (st : Array RKey × List (String × Int)) (idx : Int) :
    Array RKey × List (String × Int) :=
  if idx < 0 ∨ (st.1.size : Int) ≤ idx then st
  else if 0 < idx ∧ keyLt (agetI st.1 idx) (agetI st.1 (idx - 1)) = true then
    shiftUpW st idx
  else if idx < (st.1.size : Int) - 1 ∧ keyLt (agetI st.1 (idx + 1)) (agetI st.1 idx) = true then
    shiftDownW st idx
  else st

/-- `RankEngine::markDeleted`: erase the position entry, overwrite the
slot with the sentinel (empty id, score -1), record the offset. -/
def markDeletedW (st : Array RKey × List (String × Int) × List Int) (idx : Int) :
    Array RKey × List (String × Int) × List Int :=
  if idx < 0 ∨ (st.1.size : Int) ≤ idx then st
  else
    let old := agetI st.1 idx
    (asetI st.1 idx ⟨-1, "", old.title⟩, merase st.2.1 old.videoId, st.2.2 ++ [idx])

/-- `RankEngine::isDeleted`. -/
def isDeletedW (cur : Array RKey) (idx : Int) : Bool :=
  if idx < 0 ∨ (cur.size : Int) ≤ idx then true else (agetI cur idx).videoId = ""

/-- `RankEngine::placeInEmptySlot`: append and shift up when no free
slot exists; otherwise overwrite the most recently freed offset and
adjust by neighbour comparison. -/
def placeInEmptySlotW (st : Array RKey × List (String × Int) × List Int) (item : RKey) :
    Array RKey × List (String × Int) × List Int :=
  match st.2.2.getLast? with
  | none =>
      let cur1 := st.1.push item
      let idx : Int := (cur1.size : Int) - 1
      let pos1 := mupsert st.2.1 item.videoId idx
      let st2 := shiftUpW (cur1, pos1) idx
      (st2.1, st2.2, st.2.2)
  | some slotIdx =>
      let cur1 := asetI st.1 slotIdx item
      let pos1 := mupsert st.2.1 item.videoId slotIdx
      let st2 := adjustW (cur1, pos1) slotIdx
      (st2.1, st2.2, st.2.2.dropLast)

/-- `RankEngine::compactArray`: drop the sentinel entries, clear the
free list, rebuild the position map. -/
def compactArrayW (st : Array RKey × List (String × Int) × List Int) :
    Array RKey × List (String × Int) × List Int :=
  if st.2.2 = [] then st
  else
    let cur1 := (st.1.toList.filter (fun x => ¬(x.videoId = ""))).toArray
    (cur1, rebuildPosMap cur1, [])

/-- Phase 1 of `refresh_onlineInsert`: walk the array; update the score
of a surviving entry and re-adjust (re-reading the loop index from the
position map afterwards, as the C++ does); mark a vanished entry as
deleted.  The loop index may be moved backwards by the re-read, so the
loop is fuelled; every concrete run below terminates within its fuel. -/
def refreshOILoop :
    Nat → Array RKey × List (String × Int) × List Int × List (String × Int × Bool) →
    Int → Array RKey × List (String × Int) × List Int × List (String × Int × Bool)
  | 0, st, _ => st
  | fuel + 1, (cur, pos, empty, m), i =>
    if (cur.size : Int) ≤ i then (cur, pos, empty, m)
    else if isDeletedW cur i then refreshOILoop fuel (cur, pos, empty, m) (i + 1)
    else
      match mlookup m (agetI cur i).videoId with
      | some sc =>
          let origId := (agetI cur i).videoId
          if (agetI cur i).value ≠ sc.1 then
            let cur1 := asetI cur i ⟨sc.1, (agetI cur i).videoId, (agetI cur i).title⟩
            let st2 := adjustW (cur1, pos) i
            let i2 := match mlookup st2.2 (agetI st2.1 i).videoId with
              | some p => p
              | none => i
            refreshOILoop fuel (st2.1, st2.2, empty, mupsert m origId (sc.1, true)) (i2 + 1)
          else
            refreshOILoop fuel (cur, pos, empty, mupsert m origId (sc.1, true)) (i + 1)
      | none =>
          let st1 := markDeletedW (cur, pos, empty) i
          refreshOILoop fuel (st1.1, st1.2.1, st1.2.2, m) (i + 1)

/-- `RankEngine::refresh_onlineInsert`: initial build when the view is
empty; otherwise clear the free list, run the phase-1 walk, place the
genuinely new items, compact when free slots remain, and trim to K. -/
def refresh_onlineInsert (P : RankPolicy) (e : Engine) (newData : List Video) : Engine :=
  if e.cur.size = 0 then
    build_selectThenSort P { e with cur := setDataKeys newData }
  else
    let m0 : List (String × Int × Bool) :=
      newData.foldl (fun m v => mupsert m v.videoId (v.score, false)) []
    let st1 := refreshOILoop ((e.cur.size + newData.length + 1) * (e.cur.size + 1))
      (e.cur, e.pos, [], m0) 0
    let newItems := newData.filterMap (fun v =>
      match mlookup st1.2.2.2 v.videoId with
      | some sc => if sc.2 = false then some v.makekey else none
      | none => none)
    let st3 := newItems.foldl placeInEmptySlotW (st1.1, st1.2.1, st1.2.2.1)
    let st4 := if st3.2.2 = [] then st3 else compactArrayW st3
    if (st4.1.size : Int) > P.k then
      let pos5 := (List.range st4.1.size).foldl (fun m i =>
        if P.k ≤ (i : Int) ∧ ¬((agetI st4.1 (i : Int)).videoId = "")
        then merase m (agetI st4.1 (i : Int)).videoId else m) st4.2.1
      { e with cur := st4.1.extract 0 P.k.toNat, pos := pos5, emptySlots := st4.2.2 }
    else
      { e with cur := st4.1, pos := st4.2.1, emptySlots := st4.2.2 }

/-- `RankEngine::updateScore` (RankEngine.cpp): void in the code — no
found/not-found result is returned; an id missing from the position
map is a no-op, a present one has its score overwritten and its
position adjusted. -/
def updateScore (e : Engine) (videoId : String) (newScore : Int) : Engine :=
  match mlookup e.pos videoId with
  | none => e
  | some idx =>
      let cur1 := asetI e.cur idx ⟨newScore, (agetI e.cur idx).videoId, (agetI e.cur idx).title⟩
      let st2 := adjustW (cur1, e.pos) idx
      { e with cur := st2.1, pos := st2.2 }

/-- `RankEngine::refresh` restricted to the online-insert strategy (the
dispatch stores timing data but no ranking state changes besides the
strategy refresh). -/
def refreshOnline (P : RankPolicy) (e : Engine) (newData : List Video) : Engine :=
  refresh_onlineInsert P e newData

/-! ### A concrete online-insert run exhibiting the lazy-delete bug -/

def oiPolicy : RankPolicy := ⟨.OnlineInsert, .sort_selection, .select_sequential, 3, ⟨[], true⟩⟩

def oiItems : List Video :=
  [⟨"A", "A", 100, 0, 0, 0⟩, ⟨"B", "B", 90, 0, 0, 0⟩, ⟨"C", "C", 80, 0, 0, 0⟩]

def oiE0 : Engine := buildEngine oiItems oiPolicy

def oiNew : List Video :=
  [⟨"B", "B", 90, 0, 0, 0⟩, ⟨"C", "C", 95, 0, 0, 0⟩, ⟨"D", "D", 85, 0, 0, 0⟩]

def oiE1 : Engine := refreshOnline oiPolicy oiE0 oiNew

def oiE2 : Engine := refreshOnline oiPolicy oiE1 oiNew

/-- C1 (code bug): after building the online-insert view from
{A=100, B=90, C=80} (K=3) and refreshing with {B=90, C=95, D=85}
(A removed, C raised), `shiftUp` has moved the lazily deleted sentinel
away from its recorded offset and `placeInEmptySlot` has overwritten a
live entry: the view ends as [D=85, sentinel(-1), B=90], whose entry at
index 2 ranks strictly ahead of the entry at index 1 — the sortedness
invariant fails after a refresh. -/
theorem onlineRefresh_breaks_sortedness :
    oiE1.cur = #[⟨85, "D", "D"⟩, ⟨-1, "", "A"⟩, ⟨90, "B", "B"⟩] ∧
    keyLt (agetI oiE1.cur 2) (agetI oiE1.cur 1) = true := by decide

/-- C5 (code bug): after the same refresh the PositionIndex holds the
empty sentinel id (mapped to a sentinel slot) and a stale entry for C
pointing at the slot that now holds D — its id set is not the snapshot
ids intersected with the top-K, and an id maps to a deleted-marked
slot. -/
theorem onlineRefresh_positionIndex_corrupt :
    mlookup oiE1.pos "" = some 1 ∧ (agetI oiE1.cur 1).videoId = "" ∧
    mlookup oiE1.pos "C" = some 0 ∧ (agetI oiE1.cur 0).videoId = "D" ∧
    oiNew.map Video.videoId = ["B", "C", "D"] := by decide

/-- C6 (code bug): after the same refresh a sentinel entry (empty id,
score -1) sits at index 1 of the view while the free-slot list is
empty — the deleted slot's offset is not recorded, the sentinel does
not sort to the tail, and compaction (keyed on a non-empty free list)
never runs, leaving a sentinel in the array. -/
theorem onlineRefresh_freeList_invariant_broken :
    (agetI oiE1.cur 1).videoId = "" ∧ (agetI oiE1.cur 1).value = -1 ∧
    oiE1.emptySlots = [] ∧
    keyLt (agetI oiE1.cur 2) (agetI oiE1.cur 1) = true := by decide

/-- C7 (code bug): refreshing twice with the identical snapshot does
not leave the view unchanged — the second online-insert refresh
produces a different ranked view (and PositionIndex) than the first. -/
theorem onlineRefresh_not_idempotent :
    oiE2.cur ≠ oiE1.cur ∧ oiE2.pos ≠ oiE1.pos := by decide

/-- C9 (code bug): the C++ `updateScore` returns `void`, not the bool
the spec requires, so no found/not-found result exists; the no-op half
of the claim does hold — an id absent from the PositionIndex leaves the
engine unchanged. -/
theorem updateScore_absent_noop (e : Engine) (id : String) (s : Int)
    (h : mlookup e.pos id = none) : updateScore e id s = e := by
  simp [updateScore, h]

/-- The no-op theorem at a concrete input: an id absent from the built
engine's PositionIndex. -/
theorem updateScore_absent_noop_witness : updateScore oiE0 "Z" 1 = oiE0 :=
  updateScore_absent_noop oiE0 "Z" 1 (by decide)

/-! ## Termination of `quickSelect` (claim C10) -/

theorem agetI_in [Inhabited α] (p : Array α) (i : Int) (h0 : 0 ≤ i)
    (h : i.toNat < p.size) : agetI p i = p.get ⟨i.toNat, h⟩ := by
  simp [agetI, h0, Array.getD, h]

theorem agetI_aswapI_fst [Inhabited α] (p : Array α) (i j : Int)
    (hi0 : 0 ≤ i) (hib : i.toNat < p.size) (hj0 : 0 ≤ j) (hjb : j.toNat < p.size) :
    agetI (aswapI p i j) i = agetI p j := by
  rw [aswapI, dif_pos ⟨hi0, hib⟩, dif_pos ⟨hj0, hjb⟩]
  rw [agetI_in _ _ hi0 (by rw [Array.size_swap]; exact hib), agetI_in _ _ hj0 hjb]
  exact Array.getElem_swap_left p

theorem agetI_aswapI_snd [Inhabited α] (p : Array α) (i j : Int)
    (hi0 : 0 ≤ i) (hib : i.toNat < p.size) (hj0 : 0 ≤ j) (hjb : j.toNat < p.size) :
    agetI (aswapI p i j) j = agetI p i := by
  rw [aswapI, dif_pos ⟨hi0, hib⟩, dif_pos ⟨hj0, hjb⟩]
  rw [agetI_in _ _ hj0 (by rw [Array.size_swap]; exact hjb), agetI_in _ _ hi0 hib]
  exact Array.getElem_swap_right p

/-- The ascending scan stops at or before any "stopper" index whose
entry does not rank ahead of the pivot. -/
theorem scanUp_stopper [Inhabited α] (lt : α → α → Bool) (p : Array α) (pivot : α)
    (s : Int) (hs0 : 0 ≤ s) (hsb : s.toNat < p.size)
    (hstop : lt (agetI p s) pivot = false) :
    ∀ (N : Nat) (i : Int), 0 ≤ i → i ≤ s → (s - i).toNat ≤ N →
      i ≤ scanUp lt p pivot i ∧ scanUp lt p pivot i ≤ s ∧
      lt (agetI p (scanUp lt p pivot i)) pivot = false := by
  intro N
  induction N with
  | zero =>
      intro i h0 his hN
      have heq : i = s := by omega
      subst heq
      rw [scanUp, dif_pos ⟨h0, hsb⟩, if_neg (by rw [hstop]; simp)]
      exact ⟨le_refl _, le_refl _, hstop⟩
  | succ N ih =>
      intro i h0 his hN
      by_cases heq : i = s
      · subst heq
        rw [scanUp, dif_pos ⟨h0, hsb⟩, if_neg (by rw [hstop]; simp)]
        exact ⟨le_refl _, le_refl _, hstop⟩
      · have hib : i.toNat < p.size := by omega
        rw [scanUp, dif_pos ⟨h0, hib⟩]
        by_cases hlt : lt (agetI p i) pivot = true
        · rw [if_pos hlt]
          obtain ⟨h1, h2, h3⟩ := ih (i + 1) (by omega) (by omega) (by omega)
          exact ⟨by omega, h2, h3⟩
        · rw [if_neg hlt]
          rw [Bool.not_eq_true] at hlt
          exact ⟨le_refl _, his, hlt⟩

/-- The descending scan stops at or after any "stopper" index whose
entry the pivot does not rank ahead of. -/
theorem scanDown_stopper [Inhabited α] (lt : α → α → Bool) (p : Array α) (pivot : α)
    (t : Int) (ht0 : 0 ≤ t) (htb : t.toNat < p.size)
    (hstop : lt pivot (agetI p t) = false) :
    ∀ (N : Nat) (j : Int), j.toNat < p.size → t ≤ j → (j - t).toNat ≤ N →
      t ≤ scanDown lt p pivot j ∧ scanDown lt p pivot j ≤ j ∧
      lt pivot (agetI p (scanDown lt p pivot j)) = false := by
  intro N
  induction N with
  | zero =>
      intro j hjb htj hN
      have heq : j = t := by omega
      subst heq
      rw [scanDown, dif_pos ⟨ht0, htb⟩, if_neg (by rw [hstop]; simp)]
      exact ⟨le_refl _, le_refl _, hstop⟩
  | succ N ih =>
      intro j hjb htj hN
      by_cases heq : j = t
      · subst heq
        rw [scanDown, dif_pos ⟨ht0, htb⟩, if_neg (by rw [hstop]; simp)]
        exact ⟨le_refl _, le_refl _, hstop⟩
      · have hj0 : 0 ≤ j := by omega
        rw [scanDown, dif_pos ⟨hj0, hjb⟩]
        by_cases hlt : lt pivot (agetI p j) = true
        · rw [if_pos hlt]
          obtain ⟨h1, h2, h3⟩ := ih (j - 1) (by omega) (by omega) (by omega)
          exact ⟨h1, by omega, h3⟩
        · rw [if_neg hlt]
          rw [Bool.not_eq_true] at hlt
          exact ⟨htj, le_refl _, hlt⟩

/-- The invariant of the `while (i <= j)` partition loop: once the index
`i` has passed `lo` it stays in `(lo, hi]` (each side keeps a stopper
while the scans still run). -/
theorem partLoop_inv [Inhabited α] (lt : α → α → Bool) (pivot : α) :
    ∀ (fuel : Nat) (p : Array α) (i j lo hi : Int),
      (j - i + 2).toNat ≤ fuel →
      0 ≤ i → lo < i → i ≤ hi → j ≤ hi - 1 → hi < (p.size : Int) →
      (i ≤ j → ∃ s, i ≤ s ∧ s ≤ hi ∧ lt (agetI p s) pivot = false) →
      (i ≤ j → ∃ t, 0 ≤ t ∧ t ≤ j ∧ lt pivot (agetI p t) = false) →
      lo < (partLoop lt pivot p i j fuel).2 ∧
      (partLoop lt pivot p i j fuel).2 ≤ hi ∧
      (partLoop lt pivot p i j fuel).1.size = p.size := by
  intro fuel
  induction fuel with
  | zero =>
      intro p i j lo hi hfuel h0 hlo hile hjle hhib hU hD
      exact ⟨hlo, hile, rfl⟩
  | succ fuel ih =>
      intro p i j lo hi hfuel h0 hlo hile hjle hhib hU hD
      by_cases hij : i ≤ j
      · obtain ⟨s, hs1, hs2, hs3⟩ := hU hij
        obtain ⟨t, ht1, ht2, ht3⟩ := hD hij
        have hsb : s.toNat < p.size := by omega
        have htb : t.toNat < p.size := by omega
        obtain ⟨hiu1, hiu2, hiu3⟩ :=
          scanUp_stopper lt p pivot s (by omega) hsb hs3 ((s - i).toNat) i h0 hs1 (le_refl _)
        obtain ⟨hjd1, hjd2, hjd3⟩ :=
          scanDown_stopper lt p pivot t ht1 htb ht3 ((j - t).toNat) j (by omega) ht2 (le_refl _)
        simp only [partLoop]
        rw [if_pos hij]
        by_cases hij' : scanUp lt p pivot i ≤ scanDown lt p pivot j
        · rw [if_pos hij']
          have hiub : (scanUp lt p pivot i).toNat < p.size := by omega
          have hjdb : (scanDown lt p pivot j).toNat < p.size := by omega
          have hiu0 : 0 ≤ scanUp lt p pivot i := by omega
          have hjd0 : 0 ≤ scanDown lt p pivot j := by omega
          have hswsz : (aswapI p (scanUp lt p pivot i) (scanDown lt p pivot j)).size
              = p.size := size_aswapI _ _ _
          have ha1 : (scanDown lt p pivot j - 1 - (scanUp lt p pivot i + 1) + 2).toNat
              ≤ fuel := by
            clear ih hU hD
            omega
          have ha2 : 0 ≤ scanUp lt p pivot i + 1 := by omega
          have ha3 : lo < scanUp lt p pivot i + 1 := by omega
          have ha4 : scanUp lt p pivot i + 1 ≤ hi := by omega
          have ha5 : scanDown lt p pivot j - 1 ≤ hi - 1 := by omega
          have ha6 : hi < ((aswapI p (scanUp lt p pivot i) (scanDown lt p pivot j)).size
              : Int) := by rw [hswsz]; omega
          have ha7 : scanUp lt p pivot i + 1 ≤ scanDown lt p pivot j - 1 →
              ∃ s', scanUp lt p pivot i + 1 ≤ s' ∧ s' ≤ hi ∧
                lt (agetI (aswapI p (scanUp lt p pivot i) (scanDown lt p pivot j)) s')
                  pivot = false := by
            intro h2
            refine ⟨scanDown lt p pivot j, by omega, by omega, ?_⟩
            rw [agetI_aswapI_snd p _ _ hiu0 hiub hjd0 hjdb]
            exact hiu3
          have ha8 : scanUp lt p pivot i + 1 ≤ scanDown lt p pivot j - 1 →
              ∃ t', 0 ≤ t' ∧ t' ≤ scanDown lt p pivot j - 1 ∧
                lt pivot (agetI (aswapI p (scanUp lt p pivot i) (scanDown lt p pivot j))
                  t') = false := by
            intro h2
            refine ⟨scanUp lt p pivot i, hiu0, by omega, ?_⟩
            rw [agetI_aswapI_fst p _ _ hiu0 hiub hjd0 hjdb]
            exact hjd3
          obtain ⟨hc1, hc2, hc3⟩ := ih
            (aswapI p (scanUp lt p pivot i) (scanDown lt p pivot j))
            (scanUp lt p pivot i + 1) (scanDown lt p pivot j - 1) lo hi
            ha1 ha2 ha3 ha4 ha5 ha6 ha7 ha8
          exact ⟨hc1, hc2, by rw [hc3, hswsz]⟩
        · rw [if_neg hij']
          exact ⟨by omega, by omega, rfl⟩
      · simp only [partLoop]
        rw [if_neg hij]
        exact ⟨hlo, hile, rfl⟩

/-- `SelectDetail::partition` with the middle-element pivot on a
non-trivial range `left < right` returns a boundary in `(left, right]`
and preserves the array's size — the fact that makes every
`quickSelectImpl` recursion strictly smaller. -/
theorem hoarePartition_bound [Inhabited α] (lt : α → α → Bool)
    (hirr : ∀ x, lt x x = false) (p : Array α) (left right : Int)
    (h0 : 0 ≤ left) (hlr : left < right) (hrb : right < (p.size : Int)) :
    left < (hoarePartition lt p left right).2 ∧
    (hoarePartition lt p left right).2 ≤ right ∧
    (hoarePartition lt p left right).1.size = p.size := by
  have hmid1 : left ≤ (left + right) / 2 := by omega
  have hmid2 : (left + right) / 2 ≤ right - 1 := by omega
  have hmidb : ((left + right) / 2).toNat < p.size := by omega
  have hmid0 : 0 ≤ (left + right) / 2 := by omega
  have hirr' : lt (agetI p ((left + right) / 2)) (agetI p ((left + right) / 2)) = false :=
    hirr _
  obtain ⟨hiu1, hiu2, hiu3⟩ := scanUp_stopper lt p (agetI p ((left + right) / 2))
    ((left + right) / 2) hmid0 hmidb hirr'
    (((left + right) / 2 - left).toNat) left h0 hmid1 (le_refl _)
  obtain ⟨hjd1, hjd2, hjd3⟩ := scanDown_stopper lt p (agetI p ((left + right) / 2))
    ((left + right) / 2) hmid0 hmidb hirr'
    ((right - (left + right) / 2).toNat) right (by omega) (by omega) (le_refl _)
  obtain ⟨F, hF⟩ : ∃ F, (right - left + 2).toNat = F + 1 := ⟨(right - left + 1).toNat, by omega⟩
  rw [hoarePartition, hF]
  simp only [partLoop]
  rw [if_pos (by omega : left ≤ right)]
  rw [if_pos (by omega :
    scanUp lt p (agetI p ((left + right) / 2)) left
      ≤ scanDown lt p (agetI p ((left + right) / 2)) right)]
  have hiub : (scanUp lt p (agetI p ((left + right) / 2)) left).toNat < p.size := by omega
  have hjdb : (scanDown lt p (agetI p ((left + right) / 2)) right).toNat < p.size := by omega
  have hiu0 : 0 ≤ scanUp lt p (agetI p ((left + right) / 2)) left := by omega
  have hjd0 : 0 ≤ scanDown lt p (agetI p ((left + right) / 2)) right := by omega
  have hswsz : (aswapI p (scanUp lt p (agetI p ((left + right) / 2)) left)
      (scanDown lt p (agetI p ((left + right) / 2)) right)).size = p.size :=
    size_aswapI _ _ _
  obtain ⟨hc1, hc2, hc3⟩ := partLoop_inv lt (agetI p ((left + right) / 2)) F
    (aswapI p (scanUp lt p (agetI p ((left + right) / 2)) left)
      (scanDown lt p (agetI p ((left + right) / 2)) right))
    (scanUp lt p (agetI p ((left + right) / 2)) left + 1)
    (scanDown lt p (agetI p ((left + right) / 2)) right - 1) left right
    (by omega) (by omega) (by omega) (by omega) (by omega) (by rw [hswsz]; omega)
    (by
      intro h2
      refine ⟨scanDown lt p (agetI p ((left + right) / 2)) right, by omega, by omega, ?_⟩
      rw [agetI_aswapI_snd p _ _ hiu0 hiub hjd0 hjdb]
      exact hiu3)
    (by
      intro h2
      refine ⟨scanUp lt p (agetI p ((left + right) / 2)) left, hiu0, by omega, ?_⟩
      rw [agetI_aswapI_fst p _ _ hiu0 hiub hjd0 hjdb]
      exact hjd3)
  exact ⟨hc1, hc2, by rw [hc3, hswsz]⟩

/-- With fuel exceeding the interval length, the fuelled
`quickSelectImpl` always returns a value: the partition boundary stays
in `(left, right]`, so both recursions shrink the interval. -/
theorem quickSelectImplFuel_some [Inhabited α] (lt : α → α → Bool)
    (hirr : ∀ x, lt x x = false) :
    ∀ (fuel : Nat) (p : Array α) (k left right : Int),
      0 ≤ left → left ≤ k → k ≤ right → right < (p.size : Int) →
      (right - left).toNat < fuel →
      ((quickSelectImplFuel lt fuel p k left right).2).isSome = true := by
  intro fuel
  induction fuel with
  | zero =>
      intro p k left right h0 hlk hkr hrb hfuel
      omega
  | succ fuel ih =>
      intro p k left right h0 hlk hkr hrb hfuel
      simp only [quickSelectImplFuel]
      by_cases heq : left = right
      · rw [if_pos heq]
        rfl
      · rw [if_neg heq]
        have hlr : left < right := by omega
        obtain ⟨hb1, hb2, hb3⟩ := hoarePartition_bound lt hirr p left right h0 hlr hrb
        by_cases hki : k < (hoarePartition lt p left right).2
        · rw [if_pos hki]
          exact ih (hoarePartition lt p left right).1 k left
            ((hoarePartition lt p left right).2 - 1) h0 hlk (by omega)
            (by rw [hb3]; omega) (by omega)
        · rw [if_neg hki]
          exact ih (hoarePartition lt p left right).1 k
            (hoarePartition lt p left right).2 right (by omega) (by omega) hkr
            (by rw [hb3]; omega) (by omega)

/-- C10: `quickSelect` terminates on every non-empty vector and rank
k in [0, n-1] — the fuelled recursion (fuel n dominates the depth)
returns a value, because the Hoare-style partition always returns a
boundary strictly greater than the left bound and at most the right
bound, so each recursive interval is strictly smaller. -/
theorem quickSelect_terminates (p : Array RKey) (k : Int)
    (hne : p.size ≠ 0) (hk0 : 0 ≤ k) (hk : k < (p.size : Int)) :
    ((quickSelectRun keyLt p k).2).isSome = true ∧
    (∀ left right : Int, 0 ≤ left → left < right → right < (p.size : Int) →
      left < (hoarePartition keyLt p left right).2 ∧
      (hoarePartition keyLt p left right).2 ≤ right) := by
  constructor
  · rw [quickSelectRun, if_neg hne, if_neg (by omega)]
    exact quickSelectImplFuel_some keyLt keyLt_irrefl p.size p k 0
      ((p.size : Int) - 1) (le_refl _) hk0 (by omega) (by omega) (by omega)
  · intro left right h0 hlr hrb
    obtain ⟨h1, h2, _⟩ := hoarePartition_bound keyLt keyLt_irrefl p left right h0 hlr hrb
    exact ⟨h1, h2⟩

/-- The C10 theorem at a concrete input: three keys, rank 1. -/
theorem quickSelect_terminates_witness :
    ((quickSelectRun keyLt #[⟨3, "a", "a"⟩, ⟨1, "b", "b"⟩, ⟨2, "c", "c"⟩] 1).2).isSome
      = true :=
  (quickSelect_terminates #[⟨3, "a", "a"⟩, ⟨1, "b", "b"⟩, ⟨2, "c", "c"⟩] 1
    (by decide) (by decide) (by decide)).1

end RankSpec
